import Mathlib

/-!
Verification of the absfs/unionfs layered-filesystem engine.

This file shallowly embeds the union-filesystem engine: the path utilities
(`cleanPath`, `whiteoutPath`, `originalPath`, ...), the metadata cache, the
layer resolver (`findFile` / `checkWhiteout`), copy-up, the mutating file
operations, directory merging and symlink resolution, and proves (or refutes)
the specification claims about them.

Paths are virtual `/`-separated strings.  The Go standard-library path
functions (`path.Clean`, `path.Dir`, `path.Base`, `path.Join`) that the
engine calls are modelled faithfully from their documented lexical
algorithms.  Backends (the engine is backend-agnostic) are modelled as
in-memory maps from cleaned absolute paths to nodes.
-/

set_option maxHeartbeats 1000000
set_option maxRecDepth 4000

/-- Splits a character list at every `'/'` (the chunks between separators,
empty chunks included), mirroring splitting a Go string on `"/"`. -/
def segsOf : List Char → List (List Char)
  | [] => [[]]
  | c :: cs =>
    if c = '/' then [] :: segsOf cs
    else
      match segsOf cs with
      | [] => [[c]]
      | s :: rest => (c :: s) :: rest

/-- Joins segments with `'/'` separators (inverse of `segsOf` on good input). -/
def joinSegs : List (List Char) → List Char
  | [] => []
  | [s] => s
  | s :: rest => s ++ '/' :: joinSegs rest

/-- The two-character segment `".."`. -/
def dotdot : List Char := ['.', '.']

/-- Stack-based processing of `".."` segments, as done by Go `path.Clean`:
a `".."` pops the last kept segment; at the top of a rooted path it is
erased; at the top of a relative path it is kept. -/
def procSegs (rooted : Bool) : List (List Char) → List (List Char) → List (List Char)
  | acc, [] => acc.reverse
  | acc, s :: rest =>
    if s = dotdot then
      match acc with
      | [] => if rooted then procSegs rooted [] rest else procSegs rooted [dotdot] rest
      | a :: as =>
        if a = dotdot then procSegs rooted (dotdot :: a :: as) rest
        else procSegs rooted as rest
    else procSegs rooted (s :: acc) rest

/-- Model of Go `path.Clean`: lexically resolves `.` and `..`, removes
duplicate and trailing slashes; returns `"."` for an empty result of a
relative path and `"/"` for an empty result of a rooted path. -/
def goPathClean (p : String) : String :=
  if p.data = [] then "."
  else
    let rooted := p.data.head? = some '/'
    let segs := (segsOf p.data).filter (fun s => s ≠ [] ∧ s ≠ ['.'])
    let out := procSegs rooted [] segs
    if rooted then ⟨'/' :: joinSegs out⟩
    else if out = [] then "." else ⟨joinSegs out⟩

/-- Whether a virtual path is absolute (starts with `'/'`), Go `path.IsAbs`. -/
def isAbs (p : String) : Bool := p.data.head? = some '/'

/-- cleanPath normalizes a virtual filesystem path using forward slashes:
`path.Clean` followed by prepending `"/"` when the result is not absolute. -/
def cleanPath (p : String) : String :=
  let cleaned := goPathClean p
  if isAbs cleaned then cleaned else ⟨'/' :: cleaned.data⟩

/-- The `file` part of Go `path.Split`: everything after the final slash. -/
def goSplitFile (p : String) : List Char :=
  (p.data.reverse.takeWhile (fun c => c ≠ '/')).reverse

/-- The `dir` part of Go `path.Split`: everything up to and including the
final slash. -/
def goSplitDir (p : String) : List Char :=
  p.data.take (p.data.length - (goSplitFile p).length)

/-- Model of Go `path.Dir`: the cleaned directory portion of the path. -/
def goDir (p : String) : String := goPathClean ⟨goSplitDir p⟩

/-- Model of Go `path.Base`: the last element of the path after removing
trailing slashes; `"."` for the empty path, `"/"` if only slashes remain. -/
def goBase (p : String) : String :=
  if p.data = [] then "."
  else
    let stripped := (p.data.reverse.dropWhile (fun c => c = '/')).reverse
    let base := (stripped.reverse.takeWhile (fun c => c ≠ '/')).reverse
    if base = [] then "/" else ⟨base⟩

/-- Model of Go `path.Join` on two elements: concatenate the non-empty
elements with a slash and clean the result; empty when both are empty. -/
def goJoin (a b : String) : String :=
  if a = "" then (if b = "" then "" else goPathClean b)
  else goPathClean (a ++ "/" ++ b)

/-- WhiteoutPrefix is the prefix for whiteout files (AUFS/Docker style). -/
def WhiteoutPrefix : String := ".wh."

/-- OpaqueWhiteout marks a directory as opaque (hides all lower layer
contents). -/
def OpaqueWhiteout : String := ".wh.__dir_opaque"

/-- isWhiteout checks if a filename is a whiteout marker. -/
def isWhiteout (name : String) : Bool :=
  WhiteoutPrefix.data.isPrefixOf (goBase name).data

/-- isOpaqueWhiteout checks if a name is the opaque whiteout marker. -/
def isOpaqueWhiteout (name : String) : Bool :=
  goBase name = OpaqueWhiteout

/-- whiteoutPath returns the whiteout path for a given file path:
`dir(p)/.wh.basename(p)`. -/
def whiteoutPath (p : String) : String :=
  goJoin (goDir p) (WhiteoutPrefix ++ goBase p)

/-- originalPath returns the original path from a whiteout path, `none`
when the name is not a whiteout or is the opaque marker. -/
def originalPath (wp : String) : Option String :=
  let base := goBase wp
  if WhiteoutPrefix.data.isPrefixOf base.data then
    let original : String := ⟨base.data.drop WhiteoutPrefix.data.length⟩
    if original = "__dir_opaque" then none
    else some (goJoin (goDir wp) original)
  else none

/-- Ancestor directories of `p` strictly below the root, innermost first:
the chain `dir(p), dir(dir(p)), ...` stopping before `"/"` and `"."`,
exactly the directories visited by the opaque-marker loop in
`checkWhiteout`.  Runs on fuel; the chain of `goDir` applications reaches
`"/"` or `"."` within the length of the path. -/
def ancestorChain : Nat → String → List String
  | 0, _ => []
  | fuel + 1, d =>
    if d = "/" ∨ d = "." then []
    else d :: ancestorChain fuel (goDir d)

/-- Ancestor directories of `p` strictly below the root, as scanned by the
engine when looking for opaque markers. -/
def ancestorsBelowRoot (p : String) : List String :=
  ancestorChain (p.length + 1) (goDir p)

/-- Byte content of a literal string, for file contents. -/
def bytesOf (s : String) : List Nat := s.data.map Char.toNat

example : goPathClean "" = "." := by decide
example : goPathClean "/a/b/../c" = "/a/c" := by decide
example : goPathClean "a//b/./" = "a/b" := by decide
example : goPathClean "/../a" = "/a" := by decide
example : goPathClean ".." = ".." := by decide
example : goPathClean "../a" = "../a" := by decide
example : goPathClean "/" = "/" := by decide
example : cleanPath "" = "/." := by decide
example : cleanPath "/base.txt" = "/base.txt" := by decide
example : cleanPath "a" = "/a" := by decide
example : goDir "/d/a" = "/d" := by decide
example : goDir "/a" = "/" := by decide
example : goBase "/d/a.txt" = "a.txt" := by decide
example : goBase "/" = "/" := by decide
example : whiteoutPath "/base.txt" = "/.wh.base.txt" := by decide
example : whiteoutPath "/d/a" = "/d/.wh.a" := by decide
example : originalPath "/.wh.file1.txt" = some "/file1.txt" := by decide
example : originalPath "/d/.wh.__dir_opaque" = none := by decide
example : isWhiteout ".wh.foo" = true := by decide
example : isOpaqueWhiteout ".wh.__dir_opaque" = true := by decide
example : ancestorsBelowRoot "/d/a" = ["/d"] := by decide
example : ancestorsBelowRoot "/a" = [] := by decide

/-- Error kinds surfaced by backends and by the engine. -/
inductive Err where
  | notExist
  | alreadyExists
  | invalid
  | noWritableLayer
deriving DecidableEq, Repr

/-- One filesystem node: a regular file, a directory, or a symlink, with
its metadata.  `content` is the byte content of a regular file; `target`
is the symlink target. -/
structure Node where
  isDir : Bool := false
  isSymlink : Bool := false
  content : List Nat := []
  target : String := ""
  mode : Nat := 0
  mtime : Nat := 0
  uid : Nat := 0
  gid : Nat := 0
deriving DecidableEq, Repr

/-- A file node with the given byte content, mode and mtime. -/
def fileNode (content : List Nat) (mode mtime : Nat) : Node :=
  { content := content, mode := mode, mtime := mtime }

/-- A directory node with the given mode and mtime. -/
def dirNode (mode mtime : Nat) : Node :=
  { isDir := true, mode := mode, mtime := mtime }

/-- A symlink node with the given target. -/
def linkNode (target : String) (mode mtime : Nat) : Node :=
  { isSymlink := true, target := target, mode := mode, mtime := mtime }

/-- First-match lookup in an association list (Go map read). -/
def lookupA {β : Type} : List (String × β) → String → Option β
  | [], _ => none
  | (k, v) :: rest, q => if k = q then some v else lookupA rest q

/-- A backend filesystem: a map from cleaned absolute virtual paths to
nodes.  The root directory exists implicitly.  This models the in-memory
backends (afero `MemMapFs` / absfs `memfs`) the engine is composed with. -/
structure Fs where
  entries : List (String × Node)
deriving DecidableEq, Repr

/-- The implicit root directory node. -/
def rootNode : Node := dirNode 0o755 0

/-- An empty backend. -/
def emptyFs : Fs := ⟨[]⟩

/-- Backend `stat`: the root always exists; otherwise look the path up. -/
def Fs.stat (fs : Fs) (p : String) : Option Node :=
  if p = "/" then some rootNode else lookupA fs.entries p

/-- Removes any entry for `p` from the map. -/
def eraseA (es : List (String × Node)) (p : String) : List (String × Node) :=
  es.filter (fun e => e.1 ≠ p)

/-- Inserts (or overwrites) the entry for `p`. -/
def Fs.setEntry (fs : Fs) (p : String) (n : Node) : Fs :=
  ⟨(p, n) :: eraseA fs.entries p⟩

/-- Creates every missing ancestor directory of `p` (below the root) as a
directory, as the in-memory backends do when registering a file. -/
def Fs.insertParents (fs : Fs) (p : String) : Fs :=
  (ancestorsBelowRoot p).foldr
    (fun d acc => if (acc.stat d).isSome then acc else acc.setEntry d (dirNode 0o755 0))
    fs

/-- Backend `Create`: creates or truncates a regular file with mode 0666,
registering parent directories. -/
def Fs.create (fs : Fs) (p : String) : Fs :=
  (fs.insertParents p).setEntry p (fileNode [] 0o666 0)

/-- Backend `Remove`: deletes the entry for `p`; not-found when absent. -/
def Fs.remove (fs : Fs) (p : String) : Except Err Fs :=
  if (lookupA fs.entries p).isSome then .ok ⟨eraseA fs.entries p⟩
  else .error .notExist

/-- Removes `p` ignoring the result, for the engine call sites that drop
the error of `layer.fs.Remove(whiteout)`. -/
def Fs.removeQuiet (fs : Fs) (p : String) : Fs :=
  match fs.remove p with
  | .ok fs' => fs'
  | .error _ => fs

/-- Backend `Mkdir`: fails when the path already exists, otherwise creates
the directory (registering parents). -/
def Fs.mkdir (fs : Fs) (p : String) (perm : Nat) : Except Err Fs :=
  if (fs.stat p).isSome then .error .alreadyExists
  else .ok ((fs.insertParents p).setEntry p (dirNode perm 0))

/-- Backend `MkdirAll`: creates the directory and all missing ancestors;
fails when the path or an ancestor exists as a non-directory. -/
def Fs.mkdirAll (fs : Fs) (p : String) (perm : Nat) : Except Err Fs :=
  if (p :: ancestorsBelowRoot p).any
      (fun d => match fs.stat d with | some n => !n.isDir | none => false) then
    .error .alreadyExists
  else if (fs.stat p).isSome then .ok fs
  else .ok ((fs.insertParents p).setEntry p (dirNode perm 0))

/-- Whether `k` lies strictly inside the directory `p` (has `p ++ "/"` as
a byte prefix). -/
def underDir (p k : String) : Bool :=
  (p.data ++ ['/']).isPrefixOf k.data

/-- Backend `Rename`: moves the entry and every entry below it to the new
path; not-found when the old path is absent. -/
def Fs.rename (fs : Fs) (oldp newp : String) : Except Err Fs :=
  if (lookupA fs.entries oldp).isSome then
    .ok ⟨fs.entries.map (fun e =>
      if e.1 = oldp then (newp, e.2)
      else if underDir oldp e.1 then
        (⟨newp.data ++ e.1.data.drop oldp.data.length⟩, e.2)
      else e)⟩
  else .error .notExist

/-- Backend `Chmod`. -/
def Fs.chmod (fs : Fs) (p : String) (mode : Nat) : Except Err Fs :=
  match lookupA fs.entries p with
  | some n => .ok (fs.setEntry p { n with mode := mode })
  | none => .error .notExist

/-- Backend `Chtimes` (only the modification time is modelled). -/
def Fs.chtimes (fs : Fs) (p : String) (mtime : Nat) : Except Err Fs :=
  match lookupA fs.entries p with
  | some n => .ok (fs.setEntry p { n with mtime := mtime })
  | none => .error .notExist

/-- Backend `Chown`. -/
def Fs.chown (fs : Fs) (p : String) (uid gid : Nat) : Except Err Fs :=
  match lookupA fs.entries p with
  | some n => .ok (fs.setEntry p { n with uid := uid, gid := gid })
  | none => .error .notExist

/-- Open-file flags, one boolean per bit the engine inspects. -/
structure OFlag where
  wronly : Bool := false
  rdwr : Bool := false
  append : Bool := false
  creat : Bool := false
  excl : Bool := false
  trunc : Bool := false
deriving DecidableEq, Repr

/-- Whether any write-intent bit is set:
`O_WRONLY|O_RDWR|O_APPEND|O_CREATE|O_TRUNC`. -/
def OFlag.isWrite (f : OFlag) : Bool :=
  f.wronly || f.rdwr || f.append || f.creat || f.trunc

/-- Backend `OpenFile` with a write flag: the effect on backend state of
opening `p` (creation, exclusivity, truncation). -/
def Fs.openFileWrite (fs : Fs) (p : String) (fl : OFlag) (perm : Nat) :
    Except Err Fs :=
  match fs.stat p with
  | some n =>
    if fl.creat && fl.excl then .error .alreadyExists
    else if n.isDir then .error .invalid
    else if fl.trunc then .ok (fs.setEntry p { n with content := [] })
    else .ok fs
  | none =>
    if fl.creat then .ok ((fs.insertParents p).setEntry p (fileNode [] perm 0))
    else .error .notExist

/-- Backend write of a full byte content into an existing file. -/
def Fs.writeContent (fs : Fs) (p : String) (content : List Nat) : Fs :=
  match lookupA fs.entries p with
  | some n => fs.setEntry p { n with content := content }
  | none => fs

/-- Backend `Truncate` of a regular file to `size` bytes (extending with
zero bytes when the file is shorter). -/
def Fs.truncate (fs : Fs) (p : String) (size : Nat) : Except Err Fs :=
  match lookupA fs.entries p with
  | some n =>
    .ok (fs.setEntry p
      { n with content := n.content.take size ++ List.replicate (size - n.content.length) 0 })
  | none => .error .notExist

/-- Backend `Symlink` capability: records a symlink node at `newname`. -/
def Fs.symlink (fs : Fs) (target newname : String) : Fs :=
  (fs.insertParents newname).setEntry newname (linkNode target 0o777 0)

/-- Byte-lexicographic comparison of character lists. -/
def lexLe : List Char → List Char → Bool
  | [], _ => true
  | _ :: _, [] => false
  | a :: as, b :: bs =>
    if a.toNat < b.toNat then true
    else if b.toNat < a.toNat then false
    else lexLe as bs

/-- Insertion by ascending name, for a deterministic directory listing. -/
def insertSorted (e : String × Node) : List (String × Node) → List (String × Node)
  | [] => [e]
  | x :: xs => if lexLe e.1.data x.1.data then e :: x :: xs else x :: insertSorted e xs

/-- Backend directory listing: the base names (with nodes) of the entries
whose parent directory is `p`, sorted by name. -/
def Fs.readDir (fs : Fs) (p : String) : List (String × Node) :=
  (fs.entries.filterMap (fun e =>
    if goDir e.1 = p ∧ e.1 ≠ "/" then some (goBase e.1, e.2) else none)).foldr
    insertSorted []

example : (emptyFs.create "/d/a").stat "/d" = some (dirNode 0o755 0) := by decide
example : (emptyFs.create "/a").stat "/a" = some (fileNode [] 0o666 0) := by decide
example : ((emptyFs.create "/d/a").create "/d/b").readDir "/d" =
    [("a", fileNode [] 0o666 0), ("b", fileNode [] 0o666 0)] := by decide
example : ((emptyFs.create "/d/a").rename "/d" "/e").map (fun fs => fs.stat "/e/a") =
    .ok (some (fileNode [] 0o666 0)) := rfl

/-- statCacheEntry stores cached file info: the info, the owning layer
index, and the absolute expiry instant. -/
structure StatCacheEntry where
  info : Node
  layer : Nat
  expires : Nat
deriving DecidableEq, Repr

/-- Cache provides caching for stat results and negative lookups.  Time is
modelled as an explicit natural-number clock passed to each operation. -/
structure Cache where
  enabled : Bool
  statTTL : Nat := 0
  negativeTTL : Nat := 0
  maxEntries : Nat := 0
  statCache : List (String × StatCacheEntry) := []
  negativeCache : List (String × Nat) := []
deriving DecidableEq, Repr

/-- newCache creates a new cache with the specified configuration. -/
def newCache (enabled : Bool) (statTTL negativeTTL : Nat) (maxEntries : Nat) : Cache :=
  if !enabled then { enabled := false }
  else
    { enabled := true, statTTL := statTTL, negativeTTL := negativeTTL,
      maxEntries := maxEntries }

/-- getStat retrieves a cached stat entry if available and not expired
(`time.Now().After(expires)` is a strict comparison). -/
def Cache.getStat (c : Cache) (now : Nat) (p : String) : Option (Node × Nat) :=
  if !c.enabled then none
  else
    match lookupA c.statCache p with
    | none => none
    | some e => if now > e.expires then none else some (e.info, e.layer)

/-- Removes the entry with the earliest expiry (ties broken by map order). -/
def evictOldest {β : Type} (expiry : β → Nat) (es : List (String × β)) :
    List (String × β) :=
  match es.foldl
      (fun best e => match best with
        | none => some e
        | some b => if expiry e.2 < expiry b.2 then some e else some b)
      none with
  | none => es
  | some b => es.filter (fun e => e.1 ≠ b.1)

/-- putStat stores a stat result, evicting the oldest entry when full. -/
def Cache.putStat (c : Cache) (now : Nat) (p : String) (info : Node) (layer : Nat) :
    Cache :=
  if !c.enabled then c
  else
    let sc := if c.statCache.length ≥ c.maxEntries then
        evictOldest (fun e => e.expires) c.statCache
      else c.statCache
    { c with statCache := (p, ⟨info, layer, now + c.statTTL⟩) :: eraseStat sc p }
where
  eraseStat (es : List (String × StatCacheEntry)) (p : String) :
      List (String × StatCacheEntry) :=
    es.filter (fun e => e.1 ≠ p)

/-- isNegative checks if a path has an unexpired negative entry. -/
def Cache.isNegative (c : Cache) (now : Nat) (p : String) : Bool :=
  if !c.enabled then false
  else
    match lookupA c.negativeCache p with
    | none => false
    | some expires => !(now > expires)

/-- putNegative marks a path as non-existent. -/
def Cache.putNegative (c : Cache) (now : Nat) (p : String) : Cache :=
  if !c.enabled then c
  else
    let nc := if c.negativeCache.length ≥ c.maxEntries then
        evictOldest id c.negativeCache
      else c.negativeCache
    { c with negativeCache := (p, now + c.negativeTTL) :: nc.filter (fun e => e.1 ≠ p) }

/-- invalidate removes a path from both caches. -/
def Cache.invalidate (c : Cache) (p : String) : Cache :=
  if !c.enabled then c
  else
    { c with
      statCache := c.statCache.filter (fun e => e.1 ≠ p)
      negativeCache := c.negativeCache.filter (fun e => e.1 ≠ p) }

/-- invalidateTree removes all cache entries whose path has the given byte
prefix. -/
def Cache.invalidateTree (c : Cache) (pfx : String) : Cache :=
  if !c.enabled then c
  else
    { c with
      statCache := c.statCache.filter (fun e => !pfx.data.isPrefixOf e.1.data)
      negativeCache := c.negativeCache.filter (fun e => !pfx.data.isPrefixOf e.1.data) }

/-- clear removes all cache entries. -/
def Cache.clear (c : Cache) : Cache :=
  if !c.enabled then c else { c with statCache := [], negativeCache := [] }

/-- UnionFS: an ordered stack of layers (index 0 is the top, the writable
layer when one is configured), the metadata cache, and the copy buffer
size. -/
structure UnionFS where
  layers : List Fs
  hasWritable : Bool
  cache : Cache
  copyBufferSize : Nat := 32 * 1024
deriving DecidableEq, Repr

/-- Replaces the top layer (the target of every backend mutation). -/
def UnionFS.setTop (u : UnionFS) (l : Fs) : UnionFS :=
  { u with layers := match u.layers with | [] => [] | _ :: rest => l :: rest }

/-- Replaces the cache. -/
def UnionFS.withCache (u : UnionFS) (c : Cache) : UnionFS := { u with cache := c }

/-- The writable layer's backend (meaningful when `hasWritable`). -/
def UnionFS.top (u : UnionFS) : Fs := u.layers.headD emptyFs

/-- getWritableLayer returns the writable layer or `ErrNoWritableLayer`. -/
def UnionFS.getWritableLayer (u : UnionFS) : Except Err Fs :=
  if u.hasWritable then .ok u.top else .error .noWritableLayer

/-- Whether layer `l` hides `p`: it holds the whiteout file for `p`, or an
opaque marker in some ancestor directory of `p` strictly below the root
(the loop in `checkWhiteout` stops before reaching `"/"`). -/
def hidesIn (l : Fs) (p : String) : Bool :=
  (l.stat (whiteoutPath p)).isSome ||
    (ancestorsBelowRoot p).any (fun d => (l.stat (goJoin d OpaqueWhiteout)).isSome)

/-- checkWhiteout checks if `p` is marked as deleted via a whiteout (or an
ancestor opaque marker) in any layer above `startLayer`. -/
def UnionFS.checkWhiteout (u : UnionFS) (p : String) (startLayer : Nat) : Bool :=
  (u.layers.take startLayer).any (fun l => hidesIn l p)

/-- The layer-scanning loop of `findFile`: skip layers hidden by an upper
whiteout, stat the rest, return the first hit with its index. -/
def UnionFS.findAux (u : UnionFS) (p : String) : List Fs → Nat → Option (Node × Nat)
  | [], _ => none
  | l :: rest, i =>
    if u.checkWhiteout p i then u.findAux p rest (i + 1)
    else
      match l.stat p with
      | some n => some (n, i)
      | none => u.findAux p rest (i + 1)

/-- findFile searches for a file across all layers, respecting whiteouts,
consulting and populating the cache.  Returns the outcome (`none` is
not-found) together with the updated cache. -/
def UnionFS.findFileC (u : UnionFS) (now : Nat) (name : String) :
    Option (Node × Nat) × Cache :=
  let p := cleanPath name
  match u.cache.getStat now p with
  | some (info, layer) => (some (info, layer), u.cache)
  | none =>
    if u.cache.isNegative now p then (none, u.cache)
    else
      match u.findAux p u.layers 0 with
      | some (n, i) => (some (n, i), u.cache.putStat now p n i)
      | none => (none, u.cache.putNegative now p)

/-- Stat returns file info, searching through the layers; the engine state
carries the cache updates performed by the resolver. -/
def UnionFS.statOp (u : UnionFS) (now : Nat) (name : String) :
    Except Err Node × UnionFS :=
  match u.findFileC now name with
  | (some (n, _), c) => (.ok n, u.withCache c)
  | (none, c) => (.error .notExist, u.withCache c)

/-- ensureDir ensures all parent directories of `p` exist in the writable
layer. -/
def UnionFS.ensureDir (u : UnionFS) (p : String) : Except Err UnionFS :=
  match u.getWritableLayer with
  | .error e => .error e
  | .ok wl =>
    let dir := goDir p
    if dir = "/" ∨ dir = "." then .ok u
    else if (wl.stat dir).isSome then .ok u
    else
      match wl.mkdirAll dir 0o755 with
      | .ok wl' => .ok (u.setTop wl')
      | .error e => .error e

/-- InvalidateCache removes a path from the cache. -/
def UnionFS.invalidateCache (u : UnionFS) (name : String) : UnionFS :=
  u.withCache (u.cache.invalidate (cleanPath name))

/-- InvalidateCacheTree removes all cache entries under a path prefix. -/
def UnionFS.invalidateCacheTree (u : UnionFS) (name : String) : UnionFS :=
  u.withCache (u.cache.invalidateTree (cleanPath name))

/-- Sequences an intermediate step the way the Go code checks `err`:
an error returns immediately with the state so far, success continues. -/
def stepBind (step : Except Err Unit × UnionFS)
    (k : UnionFS → Except Err Unit × UnionFS) : Except Err Unit × UnionFS :=
  match step with
  | (.error e, v) => (.error e, v)
  | (.ok _, v) => k v

/-- copyUpFile copies a regular file to the writable layer: find the
source, create the destination with `O_CREATE|O_WRONLY|O_TRUNC` and the
source mode, stream the bytes, then chmod and (best-effort) chtimes.
Engine operations return their result together with the updated engine
state (layers and cache). -/
def UnionFS.copyUpFile (u : UnionFS) (now : Nat) (p : String) :
    Except Err Unit × UnionFS :=
  match u.getWritableLayer with
  | .error e => (.error e, u)
  | .ok _ =>
    match u.findFileC now p with
    | (none, c) => (.error .notExist, u.withCache c)
    | (some (n, idx), c) =>
      let u := u.withCache c
      if idx = 0 then (.ok (), u)
      else
        match (u.layers.getD idx emptyFs).stat p with
        | none => (.error .notExist, u)
        | some src =>
          match (u.top).openFileWrite p
              { creat := true, wronly := true, trunc := true } n.mode with
          | .error _ => (.error .invalid, u)
          | .ok wl =>
            let wl := wl.writeContent p src.content
            match wl.chmod p n.mode with
            | .error _ => (.error .invalid, u)
            | .ok wl =>
              let wl := match wl.chtimes p n.mtime with
                | .ok wl' => wl'
                | .error _ => wl
              (.ok (), u.setTop wl)

/-- copyUpDir creates a directory in the writable layer with the source
mode, then chmod and best-effort chtimes. -/
def UnionFS.copyUpDir (u : UnionFS) (p : String) (info : Node) :
    Except Err Unit × UnionFS :=
  match u.getWritableLayer with
  | .error e => (.error e, u)
  | .ok wl =>
    match wl.mkdirAll p info.mode with
    | .error _ => (.error .invalid, u)
    | .ok wl =>
      match wl.chmod p info.mode with
      | .error _ => (.error .invalid, u)
      | .ok wl =>
        let wl := match wl.chtimes p info.mtime with
          | .ok wl' => wl'
          | .error _ => wl
        (.ok (), u.setTop wl)

/-- copyUp copies a file or directory from a lower layer to the writable
layer; a no-op when the writable layer already has the path. -/
def UnionFS.copyUp (u : UnionFS) (now : Nat) (p : String) (info : Node) :
    Except Err Unit × UnionFS :=
  match u.getWritableLayer with
  | .error e => (.error e, u)
  | .ok wl =>
    if (wl.stat p).isSome then (.ok (), u)
    else
      match u.ensureDir p with
      | .error e => (.error e, u)
      | .ok u =>
        if info.isDir then u.copyUpDir p info
        else u.copyUpFile now p

/-- OpenFile: a write flag routes to the writable layer (parents ensured,
copy-up unless `O_CREATE|O_EXCL`, whiteout removed, cache invalidated);
otherwise resolve and open on the owning layer. -/
def UnionFS.openFileOp (u : UnionFS) (now : Nat) (name : String) (fl : OFlag)
    (perm : Nat) : Except Err Unit × UnionFS :=
  let q := cleanPath name
  if fl.isWrite then
    match u.getWritableLayer with
    | .error e => (.error e, u)
    | .ok _ =>
      match u.ensureDir q with
      | .error e => (.error e, u)
      | .ok u =>
        let step : Except Err Unit × UnionFS :=
          if !fl.creat || !fl.excl then
            match u.findFileC now q with
            | (some (n, idx), c) =>
              let u := u.withCache c
              if idx > 0 then u.copyUp now q n else (.ok (), u)
            | (none, c) => (.ok (), u.withCache c)
          else (.ok (), u)
        stepBind step (fun u =>
          let wl := (u.top).removeQuiet (whiteoutPath q)
          let u := (u.setTop wl).invalidateCache q
          match (u.top).openFileWrite q fl perm with
          | .error e => (.error e, u)
          | .ok wl' => (.ok (), u.setTop wl'))
  else
    match u.findFileC now q with
    | (none, c) => (.error .notExist, u.withCache c)
    | (some _, c) => (.ok (), u.withCache c)

/-- Create: `OpenFile(O_RDWR|O_CREATE|O_TRUNC, 0666)`. -/
def UnionFS.createOp (u : UnionFS) (now : Nat) (name : String) :
    Except Err Unit × UnionFS :=
  u.openFileOp now name { rdwr := true, creat := true, trunc := true } 0o666

/-- Mkdir creates a directory in the writable layer (whiteout removed,
cache invalidated on success). -/
def UnionFS.mkdirOp (u : UnionFS) (name : String) (perm : Nat) :
    Except Err Unit × UnionFS :=
  match u.getWritableLayer with
  | .error e => (.error e, u)
  | .ok _ =>
    let q := cleanPath name
    match u.ensureDir q with
    | .error e => (.error e, u)
    | .ok u =>
      let wl := (u.top).removeQuiet (whiteoutPath q)
      let u := u.setTop wl
      match (u.top).mkdir q perm with
      | .error e => (.error e, u)
      | .ok wl' => (.ok (), (u.setTop wl').invalidateCache q)

/-- splitPath splits a cleaned path into its components. -/
def splitPath (p : String) : List String :=
  ((segsOf (cleanPath p).data).filter (fun s => s ≠ [])).map (fun s => ⟨s⟩)

/-- MkdirAll creates a directory and all parents in the writable layer,
first clearing whiteouts for the path and each ancestor, then
tree-invalidating the cache. -/
def UnionFS.mkdirAllOp (u : UnionFS) (name : String) (perm : Nat) :
    Except Err Unit × UnionFS :=
  match u.getWritableLayer with
  | .error e => (.error e, u)
  | .ok wl =>
    let q := cleanPath name
    let wl := ((splitPath q).foldl
      (fun st part =>
        let current := goJoin st.1 part
        (current, st.2.removeQuiet (whiteoutPath current)))
      ("/", wl)).2
    let u := u.setTop wl
    match (u.top).mkdirAll q perm with
    | .error e => (.error e, u)
    | .ok wl' => (.ok (), (u.setTop wl').invalidateCacheTree q)

/-- Remove deletes a path: a writable-layer owner is deleted there, and a
whiteout is created (the disjunct `layerIdx > 0 || info != nil` of the
source is always true once the path resolved). -/
def UnionFS.removeOp (u : UnionFS) (now : Nat) (name : String) :
    Except Err Unit × UnionFS :=
  match u.getWritableLayer with
  | .error e => (.error e, u)
  | .ok _ =>
    let q := cleanPath name
    match u.findFileC now q with
    | (none, c) => (.error .notExist, u.withCache c)
    | (some (_info, idx), c) =>
      let u := u.withCache c
      let step : Except Err Unit × UnionFS :=
        if idx = 0 then
          match (u.top).remove q with
          | .error e => (.error e, u)
          | .ok wl' => (.ok (), u.setTop wl')
        else (.ok (), u)
      stepBind step (fun u =>
        if idx > 0 || true then
          match u.ensureDir (whiteoutPath q) with
          | .error e => (.error e, u)
          | .ok u =>
            let wl := (u.top).create (whiteoutPath q)
            (.ok (), (u.setTop wl).invalidateCache q)
        else (.ok (), u.invalidateCache q))

/-- RemoveAll removes a path and all children: recursive delete in the
writable layer, a whiteout when a lower layer owns it, tree cache
invalidation. -/
def UnionFS.removeAllOp (u : UnionFS) (now : Nat) (name : String) :
    Except Err Unit × UnionFS :=
  match u.getWritableLayer with
  | .error e => (.error e, u)
  | .ok _ =>
    let q := cleanPath name
    match u.findFileC now q with
    | (none, c) => (.error .notExist, u.withCache c)
    | (some (_info, idx), c) =>
      let u := u.withCache c
      let step : Except Err Unit × UnionFS :=
        if idx = 0 then
          let wl := u.top
          (.ok (), u.setTop ⟨(eraseA wl.entries q).filter (fun e => !underDir q e.1)⟩)
        else (.ok (), u)
      stepBind step (fun u =>
        if idx > 0 then
          match u.ensureDir (whiteoutPath q) with
          | .error e => (.error e, u)
          | .ok u =>
            let wl := (u.top).create (whiteoutPath q)
            (.ok (), (u.setTop wl).invalidateCacheTree q)
        else (.ok (), u.invalidateCacheTree q))

/-- Rename: copy-up when a lower layer owns the old path, rename inside
the writable layer, whiteout for the old path when it originated below,
exact cache invalidation of both names. -/
def UnionFS.renameOp (u : UnionFS) (now : Nat) (oldname newname : String) :
    Except Err Unit × UnionFS :=
  match u.getWritableLayer with
  | .error e => (.error e, u)
  | .ok _ =>
    let oldq := cleanPath oldname
    let newq := cleanPath newname
    match u.findFileC now oldq with
    | (none, c) => (.error .notExist, u.withCache c)
    | (some (info, idx), c) =>
      let u := u.withCache c
      let step : Except Err Unit × UnionFS :=
        if idx > 0 then u.copyUp now oldq info else (.ok (), u)
      stepBind step (fun u =>
        match u.ensureDir newq with
        | .error e => (.error e, u)
        | .ok u =>
          let wl := (u.top).removeQuiet (whiteoutPath newq)
          let u := u.setTop wl
          match (u.top).rename oldq newq with
          | .error e => (.error e, u)
          | .ok wl' =>
            let u := u.setTop wl'
            let step2 : Except Err Unit × UnionFS :=
              if idx > 0 then
                match u.ensureDir (whiteoutPath oldq) with
                | .error e => (.error e, u)
                | .ok u =>
                  (.ok (), u.setTop ((u.top).create (whiteoutPath oldq)))
              else (.ok (), u)
            stepBind step2 (fun u =>
              (.ok (), (u.invalidateCache oldq).invalidateCache newq)))

/-- Chmod changes permissions, copying up first when a lower layer owns
the path. -/
def UnionFS.chmodOp (u : UnionFS) (now : Nat) (name : String) (mode : Nat) :
    Except Err Unit × UnionFS :=
  match u.getWritableLayer with
  | .error e => (.error e, u)
  | .ok _ =>
    let q := cleanPath name
    match u.findFileC now q with
    | (none, c) => (.error .notExist, u.withCache c)
    | (some (info, idx), c) =>
      let u := u.withCache c
      let step : Except Err Unit × UnionFS :=
        if idx > 0 then u.copyUp now q info else (.ok (), u)
      stepBind step (fun u =>
        match (u.top).chmod q mode with
        | .error e => (.error e, u)
        | .ok wl' => (.ok (), (u.setTop wl').invalidateCache q))

/-- Chown changes ownership, copying up first when needed. -/
def UnionFS.chownOp (u : UnionFS) (now : Nat) (name : String) (uid gid : Nat) :
    Except Err Unit × UnionFS :=
  match u.getWritableLayer with
  | .error e => (.error e, u)
  | .ok _ =>
    let q := cleanPath name
    match u.findFileC now q with
    | (none, c) => (.error .notExist, u.withCache c)
    | (some (info, idx), c) =>
      let u := u.withCache c
      let step : Except Err Unit × UnionFS :=
        if idx > 0 then u.copyUp now q info else (.ok (), u)
      stepBind step (fun u =>
        match (u.top).chown q uid gid with
        | .error e => (.error e, u)
        | .ok wl' => (.ok (), (u.setTop wl').invalidateCache q))

/-- Chtimes changes the modification time, copying up first when needed. -/
def UnionFS.chtimesOp (u : UnionFS) (now : Nat) (name : String) (mtime : Nat) :
    Except Err Unit × UnionFS :=
  match u.getWritableLayer with
  | .error e => (.error e, u)
  | .ok _ =>
    let q := cleanPath name
    match u.findFileC now q with
    | (none, c) => (.error .notExist, u.withCache c)
    | (some (info, idx), c) =>
      let u := u.withCache c
      let step : Except Err Unit × UnionFS :=
        if idx > 0 then u.copyUp now q info else (.ok (), u)
      stepBind step (fun u =>
        match (u.top).chtimes q mtime with
        | .error e => (.error e, u)
        | .ok wl' => (.ok (), (u.setTop wl').invalidateCache q))

/-- Symlink creates a symbolic link in the writable layer (parents
ensured, whiteout removed); the source performs no cache invalidation
here. -/
def UnionFS.symlinkOp (u : UnionFS) (target newname : String) :
    Except Err Unit × UnionFS :=
  match u.getWritableLayer with
  | .error e => (.error e, u)
  | .ok _ =>
    let nn := cleanPath newname
    match u.ensureDir nn with
    | .error e => (.error e, u)
    | .ok u =>
      let wl := (u.top).removeQuiet (whiteoutPath nn)
      (.ok (), u.setTop (wl.symlink target nn))

/-- Modelled from the spec: the engine `Truncate` implementation is
missing from src/ (only its tests and callers appear there).  Following
§4.6 of the spec and `TestTruncateNoWritableLayer`: require a writable
layer; resolve; fail on directories with *invalid*; copy-up when a lower
layer owns the path; truncate on the writable layer; invalidate the
cache. -/
def UnionFS.truncateOp (u : UnionFS) (now : Nat) (name : String) (size : Nat) :
    Except Err Unit × UnionFS :=
  match u.getWritableLayer with
  | .error e => (.error e, u)
  | .ok _ =>
    let q := cleanPath name
    match u.findFileC now q with
    | (none, c) => (.error .notExist, u.withCache c)
    | (some (info, idx), c) =>
      let u := u.withCache c
      if info.isDir then (.error .invalid, u)
      else
        let step : Except Err Unit × UnionFS :=
        if idx > 0 then u.copyUp now q info else (.ok (), u)
        stepBind step (fun u =>
          match (u.top).truncate q size with
          | .error e => (.error e, u)
          | .ok wl' => (.ok (), (u.setTop wl').invalidateCache q))

/-- State of the directory-merge walk: names already emitted, names hidden
by an upper-layer whiteout, and the output so far. -/
structure MergeState where
  seen : List String
  whiteouts : List String
  out : List (String × Node)
deriving Repr

/-- Processes one directory entry of the current layer: whiteout names
record the hidden base name, opaque markers are skipped, duplicate or
whited-out names are skipped, anything else is emitted. -/
def mergeEntry (st : MergeState) (e : String × Node) : MergeState :=
  let nm := e.1
  if isWhiteout nm then
    match originalPath (goJoin nm nm) with
    | some original => { st with whiteouts := goBase original :: st.whiteouts }
    | none => st
  else if isOpaqueWhiteout nm then st
  else if st.seen.contains nm then st
  else if st.whiteouts.contains nm then st
  else { st with seen := nm :: st.seen, out := st.out ++ [e] }

/-- Folds the merge over the entries of one layer. -/
def mergeLayerEntries (st : MergeState) (es : List (String × Node)) : MergeState :=
  es.foldl mergeEntry st

/-- The layer loop of `ReadDir`: when an opaque marker was detected
anywhere, the loop breaks before every layer with index greater than 0. -/
def readDirLoop (q : String) (isOp : Bool) :
    List Fs → Nat → MergeState → MergeState
  | [], _, st => st
  | l :: rest, i, st =>
    if isOp && decide (i > 0) then st
    else readDirLoop q isOp rest (i + 1) (mergeLayerEntries st (l.readDir q))

/-- Strict byte-lexicographic order on character lists. -/
def lexLt (a b : List Char) : Bool := lexLe a b && !(a = b)

/-- Lower-cased characters of a name (the Go `strings.ToLower` of ASCII
names). -/
def lowerData (s : String) : List Char := s.data.map Char.toLower

/-- Insertion into a list sorted by ascending lower-cased name. -/
def insertByLower (e : String × Node) : List (String × Node) → List (String × Node)
  | [] => [e]
  | x :: xs =>
    if lexLt (lowerData e.1) (lowerData x.1) then e :: x :: xs
    else x :: insertByLower e xs

/-- Sorts entries by ascending lower-cased name (ties keep walk order). -/
def sortByLower (es : List (String × Node)) : List (String × Node) :=
  es.foldl (fun acc e => insertByLower e acc) []

/-- The merged listing of the given per-layer entry lists. -/
def mergeListing (lss : List (List (String × Node))) : List (String × Node) :=
  sortByLower (lss.foldl mergeLayerEntries ⟨[], [], []⟩).out

/-- ReadDir reads the named directory merging all layers: resolve and
require a directory, detect an opaque marker in any layer, walk the layer
loop, sort by lower-cased name. -/
def UnionFS.readDirOp (u : UnionFS) (now : Nat) (name : String) :
    Except Err (List (String × Node)) × UnionFS :=
  let q := cleanPath name
  match u.findFileC now q with
  | (none, c) => (.error .notExist, u.withCache c)
  | (some (info, _), c) =>
    let u := u.withCache c
    if !info.isDir then (.error .invalid, u)
    else
      let isOp := u.layers.any (fun l => (l.stat (goJoin q OpaqueWhiteout)).isSome)
      let st := readDirLoop q isOp u.layers 0 ⟨[], [], []⟩
      (.ok (sortByLower st.out), u)

/-- ReadFile returns the byte content of the named file, read from the
owning layer. -/
def UnionFS.readFileOp (u : UnionFS) (now : Nat) (name : String) :
    Except Err (List Nat) × UnionFS :=
  let q := cleanPath name
  match u.findFileC now q with
  | (none, c) => (.error .notExist, u.withCache c)
  | (some (info, idx), c) =>
    let u := u.withCache c
    if info.isDir then (.error .invalid, u)
    else
      match (u.layers.getD idx emptyFs).stat q with
      | some m => (.ok m.content, u)
      | none => (.error .notExist, u)

/-- Readlink scans the layers top to bottom (respecting whiteouts) and
returns the first symlink target; *invalid* when the entry found is not a
symlink, not-found when no layer has it. -/
def UnionFS.readlinkAux (u : UnionFS) (p : String) :
    List Fs → Nat → Except Err String
  | [], _ => .error .notExist
  | l :: rest, i =>
    if u.checkWhiteout p i then u.readlinkAux p rest (i + 1)
    else
      match l.stat p with
      | some n => if n.isSymlink then .ok n.target else .error .invalid
      | none => u.readlinkAux p rest (i + 1)

/-- Readlink returns the destination of a symlink. -/
def UnionFS.readlink (u : UnionFS) (name : String) : Except Err String :=
  u.readlinkAux (cleanPath name) u.layers 0

/-- LstatIfPossible: like `Stat` but without following symlinks; the
modelled backends all support lstat, so the supported flag is true. -/
def UnionFS.lstatIfPossible (u : UnionFS) (name : String) :
    Except Err (Node × Bool) :=
  match u.findAux (cleanPath name) u.layers 0 with
  | some (n, _) => .ok (n, true)
  | none => .error .notExist

/-- resolveSymlink resolves a symlink path: depth exhausted fails with
*invalid*; non-symlinks resolve to themselves; a symlink hop substitutes
an absolute target or joins a relative target onto the parent directory,
cleans, and recurses with one less depth. -/
def UnionFS.resolveSymlink (u : UnionFS) (p : String) : Nat → Except Err String
  | 0 => .error .invalid
  | maxDepth + 1 =>
    match u.lstatIfPossible p with
    | .error e => .error e
    | .ok (info, supported) =>
      if !supported || !info.isSymlink then .ok p
      else
        match u.readlink p with
        | .error e => .error e
        | .ok target =>
          let resolved := if isAbs target then target else goJoin (goDir p) target
          u.resolveSymlink (cleanPath resolved) maxDepth

/-- followSymlinks follows symlinks up to the maximum depth of 40 (the
Linux `MAXSYMLINKS`). -/
def UnionFS.followSymlinks (u : UnionFS) (p : String) : Except Err String :=
  u.resolveSymlink p 40

/-- Instrumented resolver returning the result together with the number
of symlink hops actually taken. -/
def UnionFS.resolveHops (u : UnionFS) (p : String) :
    Nat → Except Err String × Nat
  | 0 => (.error .invalid, 0)
  | maxDepth + 1 =>
    match u.lstatIfPossible p with
    | .error e => (.error e, 0)
    | .ok (info, supported) =>
      if !supported || !info.isSymlink then (.ok p, 0)
      else
        match u.readlink p with
        | .error e => (.error e, 0)
        | .ok target =>
          let resolved := if isAbs target then target else goJoin (goDir p) target
          let rk := u.resolveHops (cleanPath resolved) maxDepth
          (rk.1, rk.2 + 1)

/-- The mutating operations of the engine, as data, for the theorems that
quantify over every mutation. -/
inductive MutOp where
  | openf (name : String) (fl : OFlag) (perm : Nat)
  | create (name : String)
  | mkdir (name : String) (perm : Nat)
  | mkdirAll (name : String) (perm : Nat)
  | remove (name : String)
  | removeAll (name : String)
  | rename (oldname newname : String)
  | chmod (name : String) (mode : Nat)
  | chown (name : String) (uid gid : Nat)
  | chtimes (name : String) (mtime : Nat)
  | symlink (target newname : String)
  | truncate (name : String) (size : Nat)
deriving DecidableEq, Repr

/-- Dispatches a mutating operation to its implementation. -/
def applyMut (op : MutOp) (now : Nat) (u : UnionFS) : Except Err Unit × UnionFS :=
  match op with
  | .openf name fl perm => u.openFileOp now name fl perm
  | .create name => u.createOp now name
  | .mkdir name perm => u.mkdirOp name perm
  | .mkdirAll name perm => u.mkdirAllOp name perm
  | .remove name => u.removeOp now name
  | .removeAll name => u.removeAllOp now name
  | .rename oldname newname => u.renameOp now oldname newname
  | .chmod name mode => u.chmodOp now name mode
  | .chown name uid gid => u.chownOp now name uid gid
  | .chtimes name mtime => u.chtimesOp now name mtime
  | .symlink target newname => u.symlinkOp target newname
  | .truncate name size => u.truncateOp now name size

/-- Whether the operation demands a writable layer on entry (every
mutation except a read-only `OpenFile`). -/
def MutOp.requiresWritable : MutOp → Bool
  | .openf _ fl _ => fl.isWrite
  | _ => true

/-- The disabled cache the engine is created with by default. -/
def noCache : Cache := newCache false 0 0 0

/-- A two-layer engine: an empty writable top layer over one read-only
layer, cache disabled. -/
def twoLayer (ro : Fs) : UnionFS :=
  { layers := [emptyFs, ro], hasWritable := true, cache := noCache }

example :
    let ro : Fs := ⟨[("/file1.txt", fileNode (bytesOf "c1") 0o644 5),
                     ("/file2.txt", fileNode (bytesOf "c2") 0o644 5)]⟩
    let r := (twoLayer ro).removeOp 0 "/file1.txt"
    r.1 = .ok () ∧
      ((r.2.statOp 1 "/file1.txt").1 = .error .notExist) ∧
      ((r.2.statOp 1 "/file2.txt").1 = .ok (fileNode (bytesOf "c2") 0o644 5)) ∧
      ((r.2.top).stat "/.wh.file1.txt").isSome = true := by
  constructor
  · rfl
  constructor
  · rfl
  constructor
  · rfl
  · rfl

example :
    let ro : Fs := ⟨[("/test.txt", fileNode (bytesOf "original") 0o644 5)]⟩
    let r := (twoLayer ro).openFileOp 0 "/test.txt" { wronly := true } 0
    r.1 = .ok () ∧
      ((r.2.top).stat "/test.txt" =
        some (fileNode (bytesOf "original") 0o644 5)) ∧
      r.2.layers.getD 1 emptyFs = ro := by
  refine ⟨rfl, rfl, rfl⟩

/-- A fully cleaned segment: nonempty, not `"."`, not `".."`, slash-free. -/
def SegGood (s : List Char) : Prop :=
  s ≠ [] ∧ s ≠ ['.'] ∧ s ≠ dotdot ∧ '/' ∉ s

theorem mem_segsOf_no_slash {cs : List Char} {s : List Char}
    (h : s ∈ segsOf cs) : '/' ∉ s := by
  induction cs generalizing s with
  | nil =>
    simp only [segsOf, List.mem_singleton] at h
    simp [h]
  | cons c cs ih =>
    simp only [segsOf] at h
    by_cases hc : c = '/'
    · rw [if_pos hc] at h
      rcases List.mem_cons.mp h with h1 | h1
      · simp [h1]
      · exact ih h1
    · rw [if_neg hc] at h
      rcases he : segsOf cs with _ | ⟨s0, rest⟩
      · rw [he] at h
        rcases List.mem_cons.mp h with h1 | h1
        · subst h1; simpa using Ne.symm hc
        · simp at h1
      · rw [he] at h
        rcases List.mem_cons.mp h with h1 | h1
        · subst h1
          intro hm
          rcases List.mem_cons.mp hm with h2 | h2
          · exact hc h2.symm
          · exact ih (he ▸ List.mem_cons_self s0 rest) h2
        · exact ih (he ▸ List.mem_cons_of_mem s0 h1)

theorem segsOf_no_slash_single {s : List Char} (h : '/' ∉ s) :
    segsOf s = [s] := by
  induction s with
  | nil => rfl
  | cons c cs ih =>
    have hc : c ≠ '/' := fun hh => h (hh ▸ List.mem_cons_self c cs)
    have hcs : '/' ∉ cs := fun hh => h (List.mem_cons_of_mem c hh)
    simp only [segsOf, if_neg hc, ih hcs]

theorem segsOf_append_slash {s : List Char} (cs : List Char) (h : '/' ∉ s) :
    segsOf (s ++ '/' :: cs) = s :: segsOf cs := by
  induction s with
  | nil => simp [segsOf]
  | cons c s0 ih =>
    have hc : c ≠ '/' := fun hh => h (hh ▸ List.mem_cons_self c s0)
    have hs0 : '/' ∉ s0 := fun hh => h (List.mem_cons_of_mem c hh)
    have hstep : segsOf (s0 ++ '/' :: cs) = s0 :: segsOf cs := ih hs0
    simp only [List.cons_append, segsOf, if_neg hc, List.append_eq, hstep]

theorem segsOf_joinSegs {out : List (List Char)}
    (h : ∀ s ∈ out, s ≠ [] ∧ '/' ∉ s) :
    segsOf (joinSegs out) = if out = [] then [[]] else out := by
  induction out with
  | nil => rfl
  | cons s rest ih =>
    rcases rest with _ | ⟨s', rest'⟩
    · have := (h s (List.mem_cons_self _ _)).2
      simp [joinSegs, segsOf_no_slash_single this]
    · have hs : '/' ∉ s := (h s (List.mem_cons_self _ _)).2
      have hrest : ∀ x ∈ s' :: rest', x ≠ [] ∧ '/' ∉ x :=
        fun x hx => h x (List.mem_cons_of_mem s hx)
      have : joinSegs (s :: s' :: rest') = s ++ '/' :: joinSegs (s' :: rest') := rfl
      rw [this, segsOf_append_slash _ hs, ih hrest]
      simp

theorem procSegs_all_good {input : List (List Char)} {acc : List (List Char)}
    (hin : ∀ s ∈ input, s ≠ [] ∧ s ≠ ['.'] ∧ '/' ∉ s)
    (hacc : ∀ s ∈ acc, SegGood s) :
    ∀ s ∈ procSegs true acc input, SegGood s := by
  induction input generalizing acc with
  | nil =>
    intro s hs
    simp only [procSegs] at hs
    exact hacc s (List.mem_reverse.mp hs)
  | cons t rest ih =>
    intro s hs
    have hrest : ∀ x ∈ rest, x ≠ [] ∧ x ≠ ['.'] ∧ '/' ∉ x :=
      fun x hx => hin x (List.mem_cons_of_mem t hx)
    by_cases ht : t = dotdot
    · subst ht
      rcases acc with _ | ⟨a, as⟩
      · rw [show procSegs true [] (dotdot :: rest) = procSegs true [] rest from by
          simp [procSegs]] at hs
        exact ih hrest (by intro x hx; simp at hx) s hs
      · have ha : SegGood a := hacc a (List.mem_cons_self _ _)
        rw [show procSegs true (a :: as) (dotdot :: rest) = procSegs true as rest from by
          simp [procSegs, if_neg ha.2.2.1]] at hs
        exact ih hrest (fun x hx => hacc x (List.mem_cons_of_mem a hx)) s hs
    · rw [show procSegs true acc (t :: rest) = procSegs true (t :: acc) rest from by
        simp [procSegs, if_neg ht]] at hs
      refine ih hrest ?_ s hs
      intro x hx
      rcases List.mem_cons.mp hx with h1 | h1
      · have := hin t (List.mem_cons_self _ _)
        rw [h1]
        exact ⟨this.1, this.2.1, ht, this.2.2⟩
      · exact hacc x h1

theorem procSegs_no_dotdot {input : List (List Char)} (rooted : Bool)
    (hin : ∀ s ∈ input, s ≠ dotdot) (acc : List (List Char)) :
    procSegs rooted acc input = acc.reverse ++ input := by
  induction input generalizing acc with
  | nil => simp [procSegs]
  | cons t rest ih =>
    have ht : t ≠ dotdot := hin t (List.mem_cons_self _ _)
    have hrest : ∀ x ∈ rest, x ≠ dotdot := fun x hx => hin x (List.mem_cons_of_mem t hx)
    simp only [procSegs, if_neg ht]
    rw [ih hrest]
    simp

theorem data_mk (l : List Char) : (⟨l⟩ : String).data = l := rfl

theorem segsOf_cons_slash (l : List Char) : segsOf ('/' :: l) = [] :: segsOf l := by
  simp [segsOf]

theorem isAbs_mk_slash (l : List Char) : isAbs ⟨'/' :: l⟩ = true := by
  simp [isAbs]

theorem goPathClean_rooted {p : String} (h : p.data.head? = some '/') :
    goPathClean p =
      ⟨'/' :: joinSegs (procSegs true []
        ((segsOf p.data).filter (fun s => s ≠ [] ∧ s ≠ ['.'])))⟩ := by
  have hne : p.data ≠ [] := by
    intro hh; rw [hh] at h; simp at h
  simp only [goPathClean, if_neg hne]
  rw [if_pos h, h]
  simp

theorem cleanPath_rooted {p : String} (h : p.data.head? = some '/') :
    cleanPath p =
      ⟨'/' :: joinSegs (procSegs true []
        ((segsOf p.data).filter (fun s => s ≠ [] ∧ s ≠ ['.'])))⟩ := by
  have hg := goPathClean_rooted h
  simp only [cleanPath, hg, isAbs_mk_slash, if_true]

theorem out_all_good (p : String) :
    ∀ s ∈ procSegs true [] ((segsOf p.data).filter (fun s => s ≠ [] ∧ s ≠ ['.'])),
      SegGood s := by
  apply procSegs_all_good
  · intro s hs
    have := List.mem_filter.mp hs
    have h2 := of_decide_eq_true this.2
    exact ⟨h2.1, h2.2, mem_segsOf_no_slash this.1⟩
  · intro x hx
    simp at hx

theorem filter_out_eq {out : List (List Char)} (hg : ∀ s ∈ out, SegGood s) :
    (([] :: if out = [] then [[]] else out).filter
      (fun s => s ≠ [] ∧ s ≠ ['.'])) = out := by
  by_cases hout : out = []
  · subst hout; rfl
  · rw [if_neg hout]
    have h1 : (List.filter (fun s => decide (s ≠ [] ∧ s ≠ ['.'])) out) = out := by
      apply List.filter_eq_self.mpr
      intro a ha
      have := hg a ha
      exact decide_eq_true ⟨this.1, this.2.1⟩
    calc (([] : List Char) :: out).filter (fun s => s ≠ [] ∧ s ≠ ['.'])
        = out.filter (fun s => s ≠ [] ∧ s ≠ ['.']) := by simp [List.filter]
      _ = out := h1

/-- C6 main content: on an absolute input, `cleanPath` agrees with the
rooted clean, is idempotent, stays absolute, and emits no `.` or `..`
segments. -/
theorem cleanPath_abs_props {p : String} (h : isAbs p = true) :
    cleanPath (cleanPath p) = cleanPath p ∧ isAbs (cleanPath p) = true ∧
      ∀ s ∈ segsOf (cleanPath p).data, s ≠ ['.'] ∧ s ≠ dotdot := by
  have hh : p.data.head? = some '/' := by
    simpa [isAbs] using h
  have hc := cleanPath_rooted hh
  set out := procSegs true []
    ((segsOf p.data).filter (fun s => s ≠ [] ∧ s ≠ ['.'])) with hout
  have hg : ∀ s ∈ out, SegGood s := out_all_good p
  have hdata : (cleanPath p).data = '/' :: joinSegs out := by rw [hc]
  have hsegs : segsOf (cleanPath p).data =
      [] :: (if out = [] then [[]] else out) := by
    rw [hdata, segsOf_cons_slash,
      segsOf_joinSegs (fun s hs => ⟨(hg s hs).1, (hg s hs).2.2.2⟩)]
  refine ⟨?_, ?_, ?_⟩
  · have habs2 : (cleanPath p).data.head? = some '/' := by rw [hdata]; rfl
    have hc2 := cleanPath_rooted habs2
    rw [hc2, hsegs, filter_out_eq hg,
      procSegs_no_dotdot true (fun s hs => (hg s hs).2.2.1) []]
    rw [hc]
    rfl
  · rw [hc]; exact isAbs_mk_slash _
  · intro s hs
    rw [hsegs] at hs
    rcases List.mem_cons.mp hs with h1 | h1
    · subst h1; exact ⟨by decide, by decide⟩
    · by_cases hout2 : out = []
      · rw [if_pos hout2] at h1
        rcases List.mem_singleton.mp h1 with h2
        subst h2; exact ⟨by decide, by decide⟩
      · rw [if_neg hout2] at h1
        exact ⟨(hg s h1).2.1, (hg s h1).2.2.1⟩

/-- C6, counterexample: the claim quantifies over every input string, but
on the empty input `cleanPath` returns `"/."`, which contains a `"."`
segment and is not a fixed point (`cleanPath "/." = "/"`), so
`clean(clean(p)) = clean(p)` fails at `p = ""` (likewise at `".."`). -/
theorem claim_C6_counterexample :
    cleanPath "" = "/." ∧ cleanPath (cleanPath "") = "/" ∧
      cleanPath (cleanPath "") ≠ cleanPath "" ∧
      ['.'] ∈ segsOf (cleanPath "").data ∧
      cleanPath (cleanPath "..") ≠ cleanPath ".." := by
  refine ⟨by decide, by decide, by decide, by decide, by decide⟩

/-- C6, amended: for every input string that is already absolute (starts
with `'/'`), `cleanPath` is idempotent, its result starts with `'/'`, and
the result contains no `"."` or `".."` segments. -/
theorem claim_C6 (p : String) (h : isAbs p = true) :
    cleanPath (cleanPath p) = cleanPath p ∧ isAbs (cleanPath p) = true ∧
      ∀ s ∈ segsOf (cleanPath p).data, s ≠ ['.'] ∧ s ≠ dotdot :=
  cleanPath_abs_props h

/-- C6, witness: the amended claim evaluated at the absolute input
`"/a/./b/../c"`. -/
theorem claim_C6_witness :
    isAbs "/a/./b/../c" = true ∧
      (cleanPath (cleanPath "/a/./b/../c") = cleanPath "/a/./b/../c" ∧
        isAbs (cleanPath "/a/./b/../c") = true ∧
        ∀ s ∈ segsOf (cleanPath "/a/./b/../c").data, s ≠ ['.'] ∧ s ≠ dotdot) :=
  ⟨by decide, claim_C6 "/a/./b/../c" (by decide)⟩

/-- C9: in an enabled cache with `statTTL = 0`, an entry stored by
`putStat` at time `now` expires at `now` itself, so a `getStat` of the
same path at any strictly later time misses (`time.Now().After(expires)`
holds). -/
theorem claim_C9 (c : Cache) (now t : Nat) (p : String) (info : Node)
    (layer : Nat) (hen : c.enabled = true) (httl : c.statTTL = 0)
    (hlt : now < t) :
    (c.putStat now p info layer).getStat t p = none := by
  simp [Cache.putStat, Cache.getStat, hen, httl, lookupA, hlt]

/-- C9, witness: a concrete enabled cache with zero TTL, written at time 0
and read at time 1. -/
theorem claim_C9_witness :
    (newCache true 0 0 10).enabled = true ∧ (newCache true 0 0 10).statTTL = 0 ∧
      (0 : Nat) < 1 ∧
      ((newCache true 0 0 10).putStat 0 "/a" rootNode 0).getStat 1 "/a" = none :=
  ⟨rfl, rfl, by decide, claim_C9 (newCache true 0 0 10) 0 1 "/a" rootNode 0 rfl rfl (by decide)⟩

theorem resolveHops_le (u : UnionFS) :
    ∀ (d : Nat) (p : String), (u.resolveHops p d).2 ≤ d := by
  intro d
  induction d with
  | zero => intro p; simp [UnionFS.resolveHops]
  | succ n ih =>
    intro p
    simp only [UnionFS.resolveHops]
    split
    · simp
    · split
      · simp
      · split
        · simp
        · exact Nat.succ_le_succ (ih _)

theorem resolveHops_fst (u : UnionFS) :
    ∀ (d : Nat) (p : String), (u.resolveHops p d).1 = u.resolveSymlink p d := by
  intro d
  induction d with
  | zero => intro p; rfl
  | succ n ih =>
    intro p
    simp only [UnionFS.resolveHops, UnionFS.resolveSymlink]
    split
    · rfl
    · split
      · rfl
      · split
        · rfl
        · exact ih _

/-- C8: symlink resolution runs on an explicit depth: with depth 0 it
fails with *invalid* for every path, `followSymlinks` resolves with depth
40, and the number of symlink hops actually taken is at most 40 (each hop
recursing with one less depth). -/
theorem claim_C8 (u : UnionFS) (p : String) :
    u.resolveSymlink p 0 = .error .invalid ∧
      (u.resolveHops p 40).2 ≤ 40 ∧
      (u.resolveHops p 40).1 = u.followSymlinks p :=
  ⟨rfl, resolveHops_le u 40 p, resolveHops_fst u 40 p⟩

/-- Least index `j ≥ i` within `fuel` steps satisfying `P`. -/
def leastFrom (P : Nat → Bool) : Nat → Nat → Option Nat
  | _, 0 => none
  | i, fuel + 1 => if P i then some i else leastFrom P (i + 1) fuel

/-- The stat of layer `i` (none when the index is out of range). -/
def statAt (u : UnionFS) (i : Nat) (q : String) : Option Node :=
  (u.layers[i]?).bind (fun l => l.stat q)

/-- Whether layer `j` holds the whiteout file `dir(q)/.wh.basename(q)`. -/
def hasWhiteoutFor (u : UnionFS) (j : Nat) (q : String) : Bool :=
  (statAt u j (whiteoutPath q)).isSome

/-- Whether layer `j` holds an opaque marker in some ancestor directory of
`q` strictly below the root. -/
def hasOpaqueAncestor (u : UnionFS) (j : Nat) (q : String) : Bool :=
  (ancestorsBelowRoot q).any (fun d => (statAt u j (goJoin d OpaqueWhiteout)).isSome)

/-- The hiding condition of the amended precedence claim: some layer
`j < i` whites out `q` or holds an opaque marker in an ancestor directory
of `q` strictly below the root. -/
def hiddenAmended (u : UnionFS) (q : String) (i : Nat) : Bool :=
  (List.range i).any (fun j => hasWhiteoutFor u j q || hasOpaqueAncestor u j q)

/-- Availability of layer `i` per the amended precedence claim. -/
def availAmended (u : UnionFS) (q : String) (i : Nat) : Bool :=
  (statAt u i q).isSome && !(hiddenAmended u q i)

/-- The precedence claim's description of `stat`, amended to exclude the
root from the opaque-ancestor scan: the result comes from the smallest
non-hidden index at which the path exists. -/
def specFindAmended (u : UnionFS) (q : String) : Option (Node × Nat) :=
  match leastFrom (availAmended u q) 0 u.layers.length with
  | some i => (statAt u i q).map (fun n => (n, i))
  | none => none

/-- Ancestor directories of `q` as written in the claim: every ancestor
directory, the root included (for `q ≠ "/"`). -/
def claimAncestors (q : String) : List String :=
  ancestorsBelowRoot q ++ (if q = "/" then [] else ["/"])

/-- Whether layer `j` holds an opaque marker in any ancestor directory of
`q`, the root included, per the claim's words. -/
def hasOpaqueAncestorClaim (u : UnionFS) (j : Nat) (q : String) : Bool :=
  (claimAncestors q).any (fun d => (statAt u j (goJoin d OpaqueWhiteout)).isSome)

/-- The hiding condition exactly as claim C1 states it. -/
def hiddenClaim (u : UnionFS) (q : String) (i : Nat) : Bool :=
  (List.range i).any (fun j => hasWhiteoutFor u j q || hasOpaqueAncestorClaim u j q)

/-- Stat as described verbatim by claim C1 (ancestor scan including the
root). -/
def specFindClaim (u : UnionFS) (q : String) : Option (Node × Nat) :=
  match leastFrom (fun i => (statAt u i q).isSome && !(hiddenClaim u q i)) 0
      u.layers.length with
  | some i => (statAt u i q).map (fun n => (n, i))
  | none => none

theorem any_take_eq_range (ls : List Fs) (f : Fs → Bool) :
    ∀ i, (ls.take i).any f = (List.range i).any (fun j => ((ls[j]?).map f).getD false) := by
  intro i
  induction i with
  | zero => simp
  | succ n ih =>
    rw [List.take_succ, List.range_succ, List.any_append, List.any_append, ih]
    congr 1
    cases h : ls[n]? with
    | none => simp [h]
    | some l => simp [h]

theorem anyCongr {α : Type} {f g : α → Bool} :
    ∀ (l : List α), (∀ a ∈ l, f a = g a) → l.any f = l.any g := by
  intro l
  induction l with
  | nil => intro _; rfl
  | cons a as ih =>
    intro h
    simp only [List.any_cons, h a (List.mem_cons_self _ _),
      ih (fun x hx => h x (List.mem_cons_of_mem a hx))]

theorem checkWhiteout_eq_hiddenAmended (u : UnionFS) (q : String) (i : Nat) :
    u.checkWhiteout q i = hiddenAmended u q i := by
  rw [UnionFS.checkWhiteout, any_take_eq_range, hiddenAmended]
  apply anyCongr
  intro j _
  cases h : u.layers[j]? with
  | none => simp [h, hasWhiteoutFor, hasOpaqueAncestor, statAt]
  | some l => simp [h, hasWhiteoutFor, hasOpaqueAncestor, statAt, hidesIn]

/-- Availability of layer `i` as computed by the resolver code. -/
def availCode (u : UnionFS) (q : String) (i : Nat) : Bool :=
  (statAt u i q).isSome && !(u.checkWhiteout q i)

theorem availCode_eq_availAmended (u : UnionFS) (q : String) :
    availCode u q = availAmended u q := by
  funext i
  rw [availCode, availAmended, checkWhiteout_eq_hiddenAmended]

theorem findAux_eq_leastFrom (u : UnionFS) (q : String) :
    ∀ (ls : List Fs) (i : Nat), u.layers.drop i = ls →
      u.findAux q ls i =
        match leastFrom (availCode u q) i ls.length with
        | some j => (statAt u j q).map (fun n => (n, j))
        | none => none := by
  intro ls
  induction ls with
  | nil => intro i _; rfl
  | cons l rest ih =>
    intro i hdrop
    have hget : u.layers[i]? = some l := by
      have h0 : (u.layers.drop i)[0]? = some l := by rw [hdrop]; simp
      rw [List.getElem?_drop] at h0
      simpa using h0
    have hdrop1 : u.layers.drop (i + 1) = rest := by
      have : u.layers.drop (i + 1) = (u.layers.drop i).drop 1 := by
        rw [List.drop_drop]
      rw [this, hdrop]
      rfl
    have hstat : statAt u i q = l.stat q := by
      rw [statAt, hget]
      rfl
    simp only [UnionFS.findAux, List.length_cons]
    by_cases hcw : u.checkWhiteout q i
    · have havail : availCode u q i = false := by
        simp [availCode, hcw]
      rw [if_pos hcw, ih (i + 1) hdrop1]
      rw [show leastFrom (availCode u q) i (rest.length + 1) =
        leastFrom (availCode u q) (i + 1) rest.length from by
          simp [leastFrom, havail]]
    · rw [if_neg hcw]
      cases hst : l.stat q with
      | some n =>
        have havail : availCode u q i = true := by
          simp [availCode, hcw, hstat, hst]
        rw [show leastFrom (availCode u q) i (rest.length + 1) = some i from by
          simp [leastFrom, havail]]
        simp [hstat, hst]
      | none =>
        have havail : availCode u q i = false := by
          simp [availCode, hstat, hst]
        rw [ih (i + 1) hdrop1]
        rw [show leastFrom (availCode u q) i (rest.length + 1) =
          leastFrom (availCode u q) (i + 1) rest.length from by
            simp [leastFrom, havail]]

theorem leastFrom_some_P {P : Nat → Bool} :
    ∀ (fuel i j : Nat), leastFrom P i fuel = some j → P j = true := by
  intro fuel
  induction fuel with
  | zero => intro i j h; simp [leastFrom] at h
  | succ n ih =>
    intro i j h
    by_cases hp : P i
    · rw [leastFrom, if_pos hp] at h
      cases h
      exact hp
    · rw [leastFrom, if_neg hp] at h
      exact ih (i + 1) j h

theorem findFileC_cache_bypass (u : UnionFS) (p : String) (now : Nat)
    (hc : u.cache.enabled = false ∨
      (u.cache.statCache = [] ∧ u.cache.negativeCache = [])) :
    (u.findFileC now p).1 =
      match leastFrom (availCode u (cleanPath p)) 0 u.layers.length with
      | some j => (statAt u j (cleanPath p)).map (fun n => (n, j))
      | none => none := by
  have hget : u.cache.getStat now (cleanPath p) = none := by
    rcases hc with h | h
    · simp [Cache.getStat, h]
    · simp [Cache.getStat, h.1, lookupA]
  have hneg : u.cache.isNegative now (cleanPath p) = false := by
    rcases hc with h | h
    · simp [Cache.isNegative, h]
    · simp [Cache.isNegative, h.2, lookupA]
  have hfa := findAux_eq_leastFrom u (cleanPath p) u.layers 0 rfl
  simp only [UnionFS.findFileC, hget, hneg, Bool.false_eq_true, if_false, hfa]
  cases hl : leastFrom (availCode u (cleanPath p)) 0 u.layers.length with
  | none => simp
  | some j =>
    cases hst : (statAt u j (cleanPath p)).map (fun n => (n, j)) with
    | none => simp [hst]
    | some r =>
      rcases r with ⟨n0, i0⟩
      simp [hst]

/-- C1, amended: with the cache disabled or empty, `Stat(P)` returns the
info of the backend at the smallest layer index `i` at which `cleanPath P`
exists and that no layer `j < i` hides — by holding the whiteout file
`dir(P)/.wh.basename(P)` or an opaque marker in an ancestor directory of
`P` *strictly below the root* (the code never consults the root for an
opaque marker) — and fails with not-found when no such index exists. -/
theorem claim_C1 (u : UnionFS) (p : String) (now : Nat)
    (hc : u.cache.enabled = false ∨
      (u.cache.statCache = [] ∧ u.cache.negativeCache = [])) :
    (u.findFileC now p).1 = specFindAmended u (cleanPath p) := by
  rw [findFileC_cache_bypass u p now hc, specFindAmended,
    ← availCode_eq_availAmended]

/-- C1, counterexample: the claim as stated counts the root among the
ancestor directories scanned for opaque markers.  With layer 0 holding
`/.wh.__dir_opaque` (an opaque marker in the root, an ancestor directory
of `/a`) and `/a` existing only in layer 1, the claim demands that
`Stat("/a")` fail with not-found, but the engine returns layer 1's info:
`checkWhiteout` stops its ancestor walk strictly before `"/"`. -/
theorem claim_C1_counterexample :
    specFindClaim
        { layers := [⟨[("/.wh.__dir_opaque", fileNode [] 0o644 0)]⟩,
                     ⟨[("/a", fileNode (bytesOf "x") 0o644 0)]⟩],
          hasWritable := true, cache := noCache } "/a" = none ∧
      (UnionFS.findFileC
        { layers := [⟨[("/.wh.__dir_opaque", fileNode [] 0o644 0)]⟩,
                     ⟨[("/a", fileNode (bytesOf "x") 0o644 0)]⟩],
          hasWritable := true, cache := noCache } 0 "/a").1 =
        some (fileNode (bytesOf "x") 0o644 0, 1) := by
  refine ⟨by decide, by decide⟩

/-- C1, witness: the amended claim applied to a two-layer stack whose
read-only layer holds `/f`, with the cache disabled. -/
theorem claim_C1_witness :
    ((twoLayer ⟨[("/f", fileNode [] 0o644 0)]⟩).cache.enabled = false ∨
      ((twoLayer ⟨[("/f", fileNode [] 0o644 0)]⟩).cache.statCache = [] ∧
        (twoLayer ⟨[("/f", fileNode [] 0o644 0)]⟩).cache.negativeCache = [])) ∧
      ((twoLayer ⟨[("/f", fileNode [] 0o644 0)]⟩).findFileC 5 "/f").1 =
        specFindAmended (twoLayer ⟨[("/f", fileNode [] 0o644 0)]⟩) (cleanPath "/f") :=
  ⟨Or.inl rfl, claim_C1 (twoLayer ⟨[("/f", fileNode [] 0o644 0)]⟩) "/f" 5 (Or.inl rfl)⟩

/-- The engine state after removing `/f`, a file owned by the read-only
layer: the writable layer now holds the whiteout file `/.wh.f`. -/
def afterRemove : UnionFS :=
  ((twoLayer ⟨[("/f", fileNode (bytesOf "z") 0o644 0)]⟩).removeOp 0 "/f").2

/-- C10: whiteout marker files are visible through `Stat`: the resolver
does not filter names beginning with `".wh."`, so when such a path exists
at the least non-hidden layer index `i`, `findFile` succeeds and returns
that layer's info. -/
theorem claim_C10 (u : UnionFS) (p : String) (now : Nat) (i : Nat)
    (hc : u.cache.enabled = false)
    (_hw : isWhiteout (cleanPath p) = true)
    (hl : leastFrom (availCode u (cleanPath p)) 0 u.layers.length = some i) :
    ∃ n, statAt u i (cleanPath p) = some n ∧ (u.findFileC now p).1 = some (n, i) := by
  have havail := leastFrom_some_P u.layers.length 0 i hl
  rw [availCode] at havail
  simp only [Bool.and_eq_true] at havail
  have hsome := havail.1
  rcases hn : statAt u i (cleanPath p) with _ | n
  · rw [hn] at hsome; simp at hsome
  · refine ⟨n, rfl, ?_⟩
    rw [findFileC_cache_bypass u p now (Or.inl hc), hl]
    simp [hn]

/-- C10, witness: after `Remove("/f")` of a file owned by the read-only
layer, `Stat("/.wh.f")` succeeds on the engine (the whiteout file the
removal created in the writable layer is itself visible). -/
theorem claim_C10_witness :
    afterRemove.cache.enabled = false ∧
      isWhiteout (cleanPath "/.wh.f") = true ∧
      leastFrom (availCode afterRemove (cleanPath "/.wh.f")) 0
        afterRemove.layers.length = some 0 ∧
      ∃ n, statAt afterRemove 0 (cleanPath "/.wh.f") = some n ∧
        (afterRemove.findFileC 1 "/.wh.f").1 = some (n, 0) :=
  ⟨rfl, by decide, by decide,
    claim_C10 afterRemove "/.wh.f" 1 0 rfl (by decide) (by decide)⟩

/-- The S6 read-only layer: `/base.txt` with content `"base content"`. -/
def roS6 : Fs := ⟨[("/base.txt", fileNode (bytesOf "base content") 0o644 7)]⟩

/-- C5: renaming `/base.txt` (owned by the read-only layer) to
`/renamed.txt` succeeds; afterwards reading `/renamed.txt` through the
engine yields `"base content"`, `Stat("/base.txt")` fails with not-found,
the read-only backend is unchanged (still holds `/base.txt`), and the
writable backend holds `/renamed.txt` and the whiteout `/.wh.base.txt`. -/
theorem claim_C5 :
    ((twoLayer roS6).renameOp 0 "/base.txt" "/renamed.txt").1 = .ok () ∧
      (((twoLayer roS6).renameOp 0 "/base.txt" "/renamed.txt").2.readFileOp 1
        "/renamed.txt").1 = .ok (bytesOf "base content") ∧
      (((twoLayer roS6).renameOp 0 "/base.txt" "/renamed.txt").2.statOp 1
        "/base.txt").1 = .error .notExist ∧
      ((twoLayer roS6).renameOp 0 "/base.txt" "/renamed.txt").2.layers[1]? =
        some roS6 ∧
      ((((twoLayer roS6).renameOp 0 "/base.txt" "/renamed.txt").2.top).stat
        "/renamed.txt").isSome = true ∧
      ((((twoLayer roS6).renameOp 0 "/base.txt" "/renamed.txt").2.top).stat
        "/.wh.base.txt").isSome = true := by
  refine ⟨rfl, rfl, rfl, rfl, rfl, rfl⟩

/-- The highest layer index at which `<q>/.wh.__dir_opaque` exists. -/
def highestOpaqueIdx (u : UnionFS) (q : String) : Option Nat :=
  ((List.range u.layers.length).filter
    (fun i => (statAt u i (goJoin q OpaqueWhiteout)).isSome)).getLast?

/-- The merged listing as claim C4 describes it: when the opaque marker
exists somewhere, build from layers 0 through the highest marker index
inclusive; otherwise from all layers. -/
def specReadDirClaim (u : UnionFS) (q : String) : List (String × Node) :=
  match highestOpaqueIdx u q with
  | some o => mergeListing ((u.layers.take (o + 1)).map (fun l => l.readDir q))
  | none => mergeListing (u.layers.map (fun l => l.readDir q))

theorem readDirLoop_pos (q : String) :
    ∀ (ls : List Fs) (i : Nat) (st : MergeState), 0 < i →
      readDirLoop q true ls i st = st := by
  intro ls
  induction ls with
  | nil => intro i st _; rfl
  | cons l rest _ =>
    intro i st hi
    have hcond : (true && decide (i > 0)) = true := by simp [hi]
    simp [readDirLoop, hcond]

theorem readDirLoop_true (q : String) (ls : List Fs) (st : MergeState) :
    readDirLoop q true ls 0 st =
      ((ls.take 1).map (fun l => l.readDir q)).foldl mergeLayerEntries st := by
  cases ls with
  | nil => rfl
  | cons l rest =>
    simp only [readDirLoop, List.take, List.map, List.foldl]
    rw [if_neg (by simp), readDirLoop_pos q rest 1 _ (by decide)]

theorem readDirLoop_false (q : String) :
    ∀ (ls : List Fs) (i : Nat) (st : MergeState),
      readDirLoop q false ls i st =
        (ls.map (fun l => l.readDir q)).foldl mergeLayerEntries st := by
  intro ls
  induction ls with
  | nil => intro i st; rfl
  | cons l rest ih =>
    intro i st
    simp only [readDirLoop, Bool.false_and, List.map, List.foldl]
    rw [if_neg (by simp)]
    exact ih (i + 1) _

/-- C4, amended: when the opaque marker `<P>/.wh.__dir_opaque` exists in
*any* layer, the merged listing is built from the entries of layer 0
alone; otherwise from the entries of layers 0 through N−1 (the code's
layer loop breaks before every index greater than 0 once a marker was
seen anywhere, regardless of which layer holds it). -/
theorem claim_C4 (u : UnionFS) (p : String) (now : Nat) (info : Node) (i : Nat)
    (hfind : (u.findFileC now (cleanPath p)).1 = some (info, i))
    (hdir : info.isDir = true) :
    (u.readDirOp now p).1 =
      .ok (mergeListing
        ((if u.layers.any
              (fun l => (l.stat (goJoin (cleanPath p) OpaqueWhiteout)).isSome)
            then u.layers.take 1 else u.layers).map
          (fun l => l.readDir (cleanPath p)))) := by
  rcases hres : u.findFileC now (cleanPath p) with ⟨res, c⟩
  have hres1 : res = some (info, i) := by
    have := congrArg Prod.fst hres
    simp at this
    rw [← this, hfind]
  subst hres1
  have hlay : ∀ cc : Cache, (u.withCache cc).layers = u.layers := fun _ => rfl
  simp only [UnionFS.readDirOp, hres, hdir, Bool.not_true, Bool.false_eq_true,
    if_false, mergeListing, hlay]
  by_cases hop : u.layers.any
      (fun l => (l.stat (goJoin (cleanPath p) OpaqueWhiteout)).isSome) = true
  · rw [hop, readDirLoop_true, if_pos rfl]
  · have hopf : u.layers.any
        (fun l => (l.stat (goJoin (cleanPath p) OpaqueWhiteout)).isSome) = false := by
      simpa using hop
    rw [hopf, readDirLoop_false, if_neg (by simp)]

/-- The engine of the C4 counterexample: the opaque marker for `/dir`
lives in layer 1 (not in layer 0); layer 0 holds `/dir/a`, layer 1 holds
`/dir/b`. -/
def uC4 : UnionFS :=
  { layers := [⟨[("/dir", dirNode 0o755 0), ("/dir/a", fileNode [] 0o644 0)]⟩,
               ⟨[("/dir", dirNode 0o755 0),
                 ("/dir/.wh.__dir_opaque", fileNode [] 0o644 0),
                 ("/dir/b", fileNode [] 0o644 0)]⟩],
    hasWritable := true, cache := noCache }

/-- C4, counterexample: with the opaque marker only in layer 1 (so the
claim's highest marker index is O = 1), the claim predicts a listing
built from layers 0..1 — `["a", "b"]` — but the code, having seen a
marker anywhere, merges layer 0 alone and returns `["a"]`. -/
theorem claim_C4_counterexample :
    (uC4.readDirOp 0 "/dir").1 = .ok [("a", fileNode [] 0o644 0)] ∧
      specReadDirClaim uC4 "/dir" =
        [("a", fileNode [] 0o644 0), ("b", fileNode [] 0o644 0)] ∧
      (uC4.readDirOp 0 "/dir").1 ≠ .ok (specReadDirClaim uC4 "/dir") := by
  refine ⟨rfl, by decide, ?_⟩
  intro h
  have h1 : (uC4.readDirOp 0 "/dir").1 = .ok [("a", fileNode [] 0o644 0)] := rfl
  have h2 : specReadDirClaim uC4 "/dir" =
      [("a", fileNode [] 0o644 0), ("b", fileNode [] 0o644 0)] := by decide
  rw [h1, h2] at h
  simp at h

/-- The S5 engine: opaque writable directory over a read-only `/dir`. -/
def uS5 : UnionFS :=
  { layers := [⟨[("/dir", dirNode 0o755 0),
                 ("/dir/.wh.__dir_opaque", fileNode [] 0o644 0),
                 ("/dir/c", fileNode (bytesOf "3") 0o644 0)]⟩,
               ⟨[("/dir", dirNode 0o755 0),
                 ("/dir/a", fileNode (bytesOf "1") 0o644 0),
                 ("/dir/b", fileNode (bytesOf "2") 0o644 0)]⟩],
    hasWritable := true, cache := noCache }

/-- C4, witness: the amended claim applied to the S5 scenario (opaque
marker in the writable layer); the merged listing comes from layer 0
alone and equals `["c"]`. -/
theorem claim_C4_witness :
    (uS5.findFileC 0 (cleanPath "/dir")).1 = some (dirNode 0o755 0, 0) ∧
      (dirNode 0o755 0).isDir = true ∧
      (uS5.readDirOp 0 "/dir").1 =
        .ok (mergeListing
          ((if uS5.layers.any
                (fun l => (l.stat (goJoin (cleanPath "/dir") OpaqueWhiteout)).isSome)
              then uS5.layers.take 1 else uS5.layers).map
            (fun l => l.readDir (cleanPath "/dir")))) ∧
      (uS5.readDirOp 0 "/dir").1 = .ok [("c", fileNode (bytesOf "3") 0o644 0)] :=
  ⟨rfl, rfl, claim_C4 uS5 "/dir" 0 (dirNode 0o755 0) 0 rfl rfl, rfl⟩

theorem getWritableLayer_none {u : UnionFS} (h : u.hasWritable = false) :
    u.getWritableLayer = .error .noWritableLayer := by
  simp [UnionFS.getWritableLayer, h]

/-- C7: on an engine with no writable layer, every mutating operation
(OpenFile with a write flag, Create, Mkdir, MkdirAll, Remove, RemoveAll,
Rename, Chmod, Chown, Chtimes, Symlink, Truncate) fails with the
no-writable-layer error and leaves the engine — every backend layer and
the cache — exactly unchanged. -/
theorem claim_C7 (op : MutOp) (now : Nat) (u : UnionFS)
    (h : u.hasWritable = false) (hreq : op.requiresWritable = true) :
    applyMut op now u = (.error .noWritableLayer, u) := by
  have hg := getWritableLayer_none h
  cases op with
  | openf name fl perm =>
    have hfl : fl.isWrite = true := hreq
    simp [applyMut, UnionFS.openFileOp, hfl, hg]
  | create name =>
    simp [applyMut, UnionFS.createOp, UnionFS.openFileOp, OFlag.isWrite, hg]
  | mkdir name perm => simp [applyMut, UnionFS.mkdirOp, hg]
  | mkdirAll name perm => simp [applyMut, UnionFS.mkdirAllOp, hg]
  | remove name => simp [applyMut, UnionFS.removeOp, hg]
  | removeAll name => simp [applyMut, UnionFS.removeAllOp, hg]
  | rename oldname newname => simp [applyMut, UnionFS.renameOp, hg]
  | chmod name mode => simp [applyMut, UnionFS.chmodOp, hg]
  | chown name uid gid => simp [applyMut, UnionFS.chownOp, hg]
  | chtimes name mtime => simp [applyMut, UnionFS.chtimesOp, hg]
  | symlink target newname => simp [applyMut, UnionFS.symlinkOp, hg]
  | truncate name size => simp [applyMut, UnionFS.truncateOp, hg]

/-- C7, witness: a read-only-only engine rejects a concrete `Remove` with
the no-writable-layer error and is unchanged by it. -/
theorem claim_C7_witness :
    (UnionFS.hasWritable
        { layers := [⟨[("/f", fileNode [] 0o644 0)]⟩], hasWritable := false,
          cache := noCache } = false) ∧
      (MutOp.remove "/f").requiresWritable = true ∧
      applyMut (.remove "/f") 0
          { layers := [⟨[("/f", fileNode [] 0o644 0)]⟩], hasWritable := false,
            cache := noCache } =
        (.error .noWritableLayer,
          { layers := [⟨[("/f", fileNode [] 0o644 0)]⟩], hasWritable := false,
            cache := noCache }) :=
  ⟨rfl, rfl, claim_C7 (.remove "/f") 0
    { layers := [⟨[("/f", fileNode [] 0o644 0)]⟩], hasWritable := false,
      cache := noCache } rfl rfl⟩

/-- The read-only part of the layer stack: every layer below the top. -/
def tailL (u : UnionFS) : List Fs := u.layers.drop 1

theorem tailL_setTop (u : UnionFS) (l : Fs) : tailL (u.setTop l) = tailL u := by
  rcases u with ⟨ls, hw, c, b⟩
  cases ls <;> rfl

theorem tailL_withCache (u : UnionFS) (c : Cache) : tailL (u.withCache c) = tailL u := rfl

theorem tailL_invalidateCache (u : UnionFS) (p : String) :
    tailL (u.invalidateCache p) = tailL u := rfl

theorem tailL_invalidateCacheTree (u : UnionFS) (p : String) :
    tailL (u.invalidateCacheTree p) = tailL u := rfl

theorem tailL_ensureDir {u v : UnionFS} {p : String}
    (h : u.ensureDir p = .ok v) : tailL v = tailL u := by
  unfold UnionFS.ensureDir at h
  cases hg : u.getWritableLayer with
  | error e => rw [hg] at h; cases h
  | ok wl =>
    rw [hg] at h
    dsimp only at h
    by_cases h1 : goDir p = "/" ∨ goDir p = "."
    · rw [if_pos h1] at h
      cases h
      rfl
    · rw [if_neg h1] at h
      by_cases h2 : (wl.stat (goDir p)).isSome = true
      · rw [if_pos h2] at h
        cases h
        rfl
      · rw [if_neg h2] at h
        cases hm : wl.mkdirAll (goDir p) 0o755 with
        | error e => rw [hm] at h; cases h
        | ok wl2 =>
          rw [hm] at h
          cases h
          exact tailL_setTop u wl2

theorem tailL_copyUpFile (u : UnionFS) (now : Nat) (p : String) :
    tailL (u.copyUpFile now p).2 = tailL u := by
  unfold UnionFS.copyUpFile
  cases u.getWritableLayer with
  | error e => rfl
  | ok wl =>
    dsimp only
    rcases u.findFileC now p with ⟨res, c⟩
    cases res with
    | none => rfl
    | some r =>
      rcases r with ⟨n, idx⟩
      dsimp only
      by_cases hidx : idx = 0
      · rw [if_pos hidx]
        exact tailL_withCache u c
      · rw [if_neg hidx]
        cases ((u.withCache c).layers.getD idx emptyFs).stat p with
        | none => rfl
        | some src =>
          dsimp only
          cases ((u.withCache c).top).openFileWrite p
              { creat := true, wronly := true, trunc := true } n.mode with
          | error e => rfl
          | ok wl2 =>
            dsimp only
            cases (wl2.writeContent p src.content).chmod p n.mode with
            | error e => rfl
            | ok wl3 =>
              dsimp only
              cases wl3.chtimes p n.mtime with
              | ok wl4 => exact (tailL_setTop _ wl4).trans (tailL_withCache u c)
              | error e => exact (tailL_setTop _ wl3).trans (tailL_withCache u c)

theorem tailL_copyUpDir (u : UnionFS) (p : String) (info : Node) :
    tailL (u.copyUpDir p info).2 = tailL u := by
  unfold UnionFS.copyUpDir
  cases u.getWritableLayer with
  | error e => rfl
  | ok wl =>
    dsimp only
    cases wl.mkdirAll p info.mode with
    | error e => rfl
    | ok wl2 =>
      dsimp only
      cases wl2.chmod p info.mode with
      | error e => rfl
      | ok wl3 =>
        dsimp only
        cases wl3.chtimes p info.mtime with
        | ok wl4 => exact tailL_setTop u wl4
        | error e => exact tailL_setTop u wl3

theorem tailL_copyUp (u : UnionFS) (now : Nat) (p : String) (info : Node) :
    tailL (u.copyUp now p info).2 = tailL u := by
  unfold UnionFS.copyUp
  cases u.getWritableLayer with
  | error e => rfl
  | ok wl =>
    dsimp only
    by_cases hst : (wl.stat p).isSome = true
    · rw [if_pos hst]
    · rw [if_neg hst]
      cases hd : u.ensureDir p with
      | error e => rfl
      | ok v =>
        dsimp only
        by_cases hdir : info.isDir = true
        · rw [if_pos hdir]
          exact (tailL_copyUpDir v p info).trans (tailL_ensureDir hd)
        · rw [if_neg hdir]
          exact (tailL_copyUpFile v now p).trans (tailL_ensureDir hd)

theorem tailL_stepBind {step : Except Err Unit × UnionFS}
    {k : UnionFS → Except Err Unit × UnionFS} {t : List Fs}
    (hstep : tailL step.2 = t)
    (hk : ∀ v, tailL v = t → tailL (k v).2 = t) :
    tailL (stepBind step k).2 = t := by
  rcases step with ⟨r, v⟩
  cases r with
  | error e => exact hstep
  | ok _ => exact hk v hstep

theorem tailL_openFileOp (u : UnionFS) (now : Nat) (name : String) (fl : OFlag)
    (perm : Nat) : tailL (u.openFileOp now name fl perm).2 = tailL u := by
  unfold UnionFS.openFileOp
  by_cases hw : fl.isWrite = true
  · rw [if_pos hw]
    cases u.getWritableLayer with
    | error e => rfl
    | ok wl =>
      dsimp only
      cases hd : u.ensureDir (cleanPath name) with
      | error e => rfl
      | ok u1 =>
        dsimp only
        refine tailL_stepBind ?_ ?_
        · by_cases hce : (!fl.creat || !fl.excl) = true
          · rw [if_pos hce]
            rcases u1.findFileC now (cleanPath name) with ⟨res, c⟩
            cases res with
            | none => exact (tailL_withCache u1 c).trans (tailL_ensureDir hd)
            | some r =>
              rcases r with ⟨n, idx⟩
              dsimp only
              by_cases hidx : idx > 0
              · rw [if_pos hidx]
                exact ((tailL_copyUp _ now (cleanPath name) n).trans
                  (tailL_withCache u1 c)).trans (tailL_ensureDir hd)
              · rw [if_neg hidx]
                exact (tailL_withCache u1 c).trans (tailL_ensureDir hd)
          · rw [if_neg hce]
            exact tailL_ensureDir hd
        · intro v hv
          dsimp only
          cases ((v.setTop ((v.top).removeQuiet
              (whiteoutPath (cleanPath name)))).invalidateCache
              (cleanPath name)).top.openFileWrite (cleanPath name) fl perm with
          | error e =>
            exact (tailL_invalidateCache _ _).trans ((tailL_setTop v _).trans hv)
          | ok wl2 =>
            exact (tailL_setTop _ wl2).trans ((tailL_invalidateCache _ _).trans
              ((tailL_setTop v _).trans hv))
  · rw [if_neg hw]
    rcases u.findFileC now (cleanPath name) with ⟨res, c⟩
    cases res with
    | none => rfl
    | some r => exact tailL_withCache u c

theorem tailL_mkdirOp (u : UnionFS) (name : String) (perm : Nat) :
    tailL (u.mkdirOp name perm).2 = tailL u := by
  unfold UnionFS.mkdirOp
  cases u.getWritableLayer with
  | error e => rfl
  | ok wl =>
    dsimp only
    cases hd : u.ensureDir (cleanPath name) with
    | error e => rfl
    | ok u1 =>
      dsimp only
      have hu1 : tailL u1 = tailL u := tailL_ensureDir hd
      cases (u1.setTop ((u1.top).removeQuiet
          (whiteoutPath (cleanPath name)))).top.mkdir (cleanPath name) perm with
      | error e => exact (tailL_setTop u1 _).trans hu1
      | ok wl2 =>
        exact (tailL_invalidateCache _ _).trans ((tailL_setTop _ wl2).trans
          ((tailL_setTop u1 _).trans hu1))

theorem tailL_mkdirAllOp (u : UnionFS) (name : String) (perm : Nat) :
    tailL (u.mkdirAllOp name perm).2 = tailL u := by
  unfold UnionFS.mkdirAllOp
  cases u.getWritableLayer with
  | error e => rfl
  | ok wl =>
    dsimp only
    cases (u.setTop _).top.mkdirAll (cleanPath name) perm with
    | error e => exact tailL_setTop u _
    | ok wl2 =>
      exact (tailL_invalidateCacheTree _ _).trans ((tailL_setTop _ wl2).trans
        (tailL_setTop u _))

theorem tailL_removeOp (u : UnionFS) (now : Nat) (name : String) :
    tailL (u.removeOp now name).2 = tailL u := by
  unfold UnionFS.removeOp
  cases u.getWritableLayer with
  | error e => rfl
  | ok wl =>
    dsimp only
    rcases u.findFileC now (cleanPath name) with ⟨res, c⟩
    cases res with
    | none => rfl
    | some r =>
      rcases r with ⟨info, idx⟩
      dsimp only
      have hwc : tailL (u.withCache c) = tailL u := tailL_withCache u c
      refine tailL_stepBind ?_ ?_
      · by_cases hidx : idx = 0
        · rw [if_pos hidx]
          cases (u.withCache c).top.remove (cleanPath name) with
          | error e => exact hwc
          | ok wl2 => exact (tailL_setTop _ wl2).trans hwc
        · rw [if_neg hidx]
          exact hwc
      · intro v hv
        rw [if_pos (by simp)]
        cases hd : v.ensureDir (whiteoutPath (cleanPath name)) with
        | error e => exact hv
        | ok u3 =>
          exact (tailL_invalidateCache _ _).trans ((tailL_setTop u3 _).trans
            ((tailL_ensureDir hd).trans hv))

theorem tailL_removeAllOp (u : UnionFS) (now : Nat) (name : String) :
    tailL (u.removeAllOp now name).2 = tailL u := by
  unfold UnionFS.removeAllOp
  cases u.getWritableLayer with
  | error e => rfl
  | ok wl =>
    dsimp only
    rcases u.findFileC now (cleanPath name) with ⟨res, c⟩
    cases res with
    | none => rfl
    | some r =>
      rcases r with ⟨info, idx⟩
      dsimp only
      have hwc : tailL (u.withCache c) = tailL u := tailL_withCache u c
      refine tailL_stepBind ?_ ?_
      · by_cases hidx : idx = 0
        · rw [if_pos hidx]
          exact (tailL_setTop _ _).trans hwc
        · rw [if_neg hidx]
          exact hwc
      · intro v hv
        by_cases hidx : idx > 0
        · rw [if_pos hidx]
          cases hd : v.ensureDir (whiteoutPath (cleanPath name)) with
          | error e => exact hv
          | ok u3 =>
            exact (tailL_invalidateCacheTree _ _).trans ((tailL_setTop u3 _).trans
              ((tailL_ensureDir hd).trans hv))
        · rw [if_neg hidx]
          exact (tailL_invalidateCacheTree _ _).trans hv

theorem tailL_renameOp (u : UnionFS) (now : Nat) (oldname newname : String) :
    tailL (u.renameOp now oldname newname).2 = tailL u := by
  unfold UnionFS.renameOp
  cases u.getWritableLayer with
  | error e => rfl
  | ok wl =>
    dsimp only
    rcases u.findFileC now (cleanPath oldname) with ⟨res, c⟩
    cases res with
    | none => rfl
    | some r =>
      rcases r with ⟨info, idx⟩
      dsimp only
      have hwc : tailL (u.withCache c) = tailL u := tailL_withCache u c
      refine tailL_stepBind ?_ ?_
      · by_cases hidx : idx > 0
        · rw [if_pos hidx]
          exact (tailL_copyUp _ now (cleanPath oldname) info).trans hwc
        · rw [if_neg hidx]
          exact hwc
      · intro v hv
        cases hd : v.ensureDir (cleanPath newname) with
        | error e => exact hv
        | ok v1 =>
          dsimp only
          have hv1 : tailL v1 = tailL u := (tailL_ensureDir hd).trans hv
          cases (v1.setTop ((v1.top).removeQuiet
              (whiteoutPath (cleanPath newname)))).top.rename (cleanPath oldname)
              (cleanPath newname) with
          | error e => exact (tailL_setTop v1 _).trans hv1
          | ok wl2 =>
            dsimp only
            refine tailL_stepBind ?_ ?_
            · by_cases hidx2 : idx > 0
              · rw [if_pos hidx2]
                cases hd2 : ((v1.setTop ((v1.top).removeQuiet
                    (whiteoutPath (cleanPath newname)))).setTop wl2).ensureDir
                    (whiteoutPath (cleanPath oldname)) with
                | error e =>
                  exact (tailL_setTop _ wl2).trans ((tailL_setTop v1 _).trans hv1)
                | ok v3 =>
                  exact (tailL_setTop v3 _).trans ((tailL_ensureDir hd2).trans
                    ((tailL_setTop _ wl2).trans ((tailL_setTop v1 _).trans hv1)))
              · rw [if_neg hidx2]
                exact (tailL_setTop _ wl2).trans ((tailL_setTop v1 _).trans hv1)
            · intro v4 hv4
              exact (tailL_invalidateCache _ _).trans
                ((tailL_invalidateCache _ _).trans hv4)

theorem tailL_chmodOp (u : UnionFS) (now : Nat) (name : String) (mode : Nat) :
    tailL (u.chmodOp now name mode).2 = tailL u := by
  unfold UnionFS.chmodOp
  cases u.getWritableLayer with
  | error e => rfl
  | ok wl =>
    dsimp only
    rcases u.findFileC now (cleanPath name) with ⟨res, c⟩
    cases res with
    | none => rfl
    | some r =>
      rcases r with ⟨info, idx⟩
      dsimp only
      refine tailL_stepBind ?_ ?_
      · by_cases hidx : idx > 0
        · rw [if_pos hidx]
          exact (tailL_copyUp _ now (cleanPath name) info).trans (tailL_withCache u c)
        · rw [if_neg hidx]
          exact tailL_withCache u c
      · intro v hv
        cases (v.top).chmod (cleanPath name) mode with
        | error e => exact hv
        | ok wl2 =>
          exact (tailL_invalidateCache _ _).trans ((tailL_setTop v wl2).trans hv)

theorem tailL_chownOp (u : UnionFS) (now : Nat) (name : String) (uid gid : Nat) :
    tailL (u.chownOp now name uid gid).2 = tailL u := by
  unfold UnionFS.chownOp
  cases u.getWritableLayer with
  | error e => rfl
  | ok wl =>
    dsimp only
    rcases u.findFileC now (cleanPath name) with ⟨res, c⟩
    cases res with
    | none => rfl
    | some r =>
      rcases r with ⟨info, idx⟩
      dsimp only
      refine tailL_stepBind ?_ ?_
      · by_cases hidx : idx > 0
        · rw [if_pos hidx]
          exact (tailL_copyUp _ now (cleanPath name) info).trans (tailL_withCache u c)
        · rw [if_neg hidx]
          exact tailL_withCache u c
      · intro v hv
        cases (v.top).chown (cleanPath name) uid gid with
        | error e => exact hv
        | ok wl2 =>
          exact (tailL_invalidateCache _ _).trans ((tailL_setTop v wl2).trans hv)

theorem tailL_chtimesOp (u : UnionFS) (now : Nat) (name : String) (mtime : Nat) :
    tailL (u.chtimesOp now name mtime).2 = tailL u := by
  unfold UnionFS.chtimesOp
  cases u.getWritableLayer with
  | error e => rfl
  | ok wl =>
    dsimp only
    rcases u.findFileC now (cleanPath name) with ⟨res, c⟩
    cases res with
    | none => rfl
    | some r =>
      rcases r with ⟨info, idx⟩
      dsimp only
      refine tailL_stepBind ?_ ?_
      · by_cases hidx : idx > 0
        · rw [if_pos hidx]
          exact (tailL_copyUp _ now (cleanPath name) info).trans (tailL_withCache u c)
        · rw [if_neg hidx]
          exact tailL_withCache u c
      · intro v hv
        cases (v.top).chtimes (cleanPath name) mtime with
        | error e => exact hv
        | ok wl2 =>
          exact (tailL_invalidateCache _ _).trans ((tailL_setTop v wl2).trans hv)

theorem tailL_symlinkOp (u : UnionFS) (target newname : String) :
    tailL (u.symlinkOp target newname).2 = tailL u := by
  unfold UnionFS.symlinkOp
  cases u.getWritableLayer with
  | error e => rfl
  | ok wl =>
    dsimp only
    cases hd : u.ensureDir (cleanPath newname) with
    | error e => rfl
    | ok u1 =>
      exact (tailL_setTop u1 _).trans (tailL_ensureDir hd)

theorem tailL_truncateOp (u : UnionFS) (now : Nat) (name : String) (size : Nat) :
    tailL (u.truncateOp now name size).2 = tailL u := by
  unfold UnionFS.truncateOp
  cases u.getWritableLayer with
  | error e => rfl
  | ok wl =>
    dsimp only
    rcases u.findFileC now (cleanPath name) with ⟨res, c⟩
    cases res with
    | none => rfl
    | some r =>
      rcases r with ⟨info, idx⟩
      dsimp only
      by_cases hdir : info.isDir = true
      · rw [if_pos hdir]
        exact tailL_withCache u c
      · rw [if_neg hdir]
        refine tailL_stepBind ?_ ?_
        · by_cases hidx : idx > 0
          · rw [if_pos hidx]
            exact (tailL_copyUp _ now (cleanPath name) info).trans (tailL_withCache u c)
          · rw [if_neg hidx]
            exact tailL_withCache u c
        · intro v hv
          cases (v.top).truncate (cleanPath name) size with
          | error e => exact hv
          | ok wl2 =>
            exact (tailL_invalidateCache _ _).trans ((tailL_setTop v wl2).trans hv)

/-- C2: every mutating operation that succeeds leaves every read-only
layer backend (index 1 and below) exactly unchanged — byte content, mode
bits and modification times included — since all backend writes go to the
top (writable) layer. -/
theorem claim_C2 (op : MutOp) (now : Nat) (u : UnionFS)
    (_hs : (applyMut op now u).1 = .ok ()) :
    (applyMut op now u).2.layers.drop 1 = u.layers.drop 1 := by
  cases op with
  | openf name fl perm => exact tailL_openFileOp u now name fl perm
  | create name => exact tailL_openFileOp u now name _ _
  | mkdir name perm => exact tailL_mkdirOp u name perm
  | mkdirAll name perm => exact tailL_mkdirAllOp u name perm
  | remove name => exact tailL_removeOp u now name
  | removeAll name => exact tailL_removeAllOp u now name
  | rename oldname newname => exact tailL_renameOp u now oldname newname
  | chmod name mode => exact tailL_chmodOp u now name mode
  | chown name uid gid => exact tailL_chownOp u now name uid gid
  | chtimes name mtime => exact tailL_chtimesOp u now name mtime
  | symlink target newname => exact tailL_symlinkOp u target newname
  | truncate name size => exact tailL_truncateOp u now name size

/-- C2, witness: a successful `Create("/new.txt")` on a two-layer engine
leaves the read-only layer list unchanged. -/
theorem claim_C2_witness :
    (applyMut (.create "/new.txt") 0 (twoLayer roS6)).1 = .ok () ∧
      (applyMut (.create "/new.txt") 0 (twoLayer roS6)).2.layers.drop 1 =
        (twoLayer roS6).layers.drop 1 :=
  ⟨rfl, claim_C2 (.create "/new.txt") 0 (twoLayer roS6) rfl⟩

/-- No cached observation of `p` survives: positive lookups miss and the
negative cache does not claim `p`, at every time. -/
def cacheCleared (c : Cache) (p : String) : Prop :=
  ∀ t, c.getStat t p = none ∧ c.isNegative t p = false

theorem lookupA_filter_self {β : Type} (es : List (String × β))
    (f : String × β → Bool) (q : String) (h : ∀ v, f (q, v) = false) :
    lookupA (es.filter f) q = none := by
  induction es with
  | nil => rfl
  | cons e es ih =>
    rcases e with ⟨k, v⟩
    by_cases hf : f (k, v) = true
    · rw [List.filter_cons_of_pos hf, lookupA]
      by_cases hk : k = q
      · subst hk; rw [h v] at hf; cases hf
      · rw [if_neg hk]; exact ih
    · rw [List.filter_cons_of_neg (by simpa using hf)]
      exact ih

theorem lookupA_filter_mono {β : Type} (es : List (String × β))
    (f : String × β → Bool) (q : String) (h : lookupA es q = none) :
    lookupA (es.filter f) q = none := by
  induction es with
  | nil => rfl
  | cons e es ih =>
    rcases e with ⟨k, v⟩
    rw [lookupA] at h
    by_cases hk : k = q
    · rw [if_pos hk] at h; cases h
    · rw [if_neg hk] at h
      by_cases hf : f (k, v) = true
      · rw [List.filter_cons_of_pos hf, lookupA, if_neg hk]
        exact ih h
      · rw [List.filter_cons_of_neg (by simpa using hf)]
        exact ih h

theorem cleared_invalidate_self (c : Cache) (p : String) :
    cacheCleared (c.invalidate p) p := by
  intro t
  cases he : c.enabled with
  | false =>
    constructor
    · simp [Cache.invalidate, Cache.getStat, he]
    · simp [Cache.invalidate, Cache.isNegative, he]
  | true =>
    constructor
    · simp only [Cache.invalidate, Cache.getStat, he, Bool.not_true,
        Bool.false_eq_true, if_false]
      rw [lookupA_filter_self _ _ _ (fun v => by simp)]
    · simp only [Cache.invalidate, Cache.isNegative, he, Bool.not_true,
        Bool.false_eq_true, if_false]
      rw [lookupA_filter_self _ _ _ (fun v => by simp)]

theorem isPrefixOf_self_char : ∀ (l : List Char), l.isPrefixOf l = true := by
  intro l
  induction l with
  | nil => rfl
  | cons a as ih => simp [List.isPrefixOf, ih]

theorem cleared_invalidateTree_self (c : Cache) (p : String) :
    cacheCleared (c.invalidateTree p) p := by
  intro t
  cases he : c.enabled with
  | false =>
    constructor
    · simp [Cache.invalidateTree, Cache.getStat, he]
    · simp [Cache.invalidateTree, Cache.isNegative, he]
  | true =>
    constructor
    · simp only [Cache.invalidateTree, Cache.getStat, he, Bool.not_true,
        Bool.false_eq_true, if_false]
      rw [lookupA_filter_self _ _ _
        (fun v => by simp [isPrefixOf_self_char])]
    · simp only [Cache.invalidateTree, Cache.isNegative, he, Bool.not_true,
        Bool.false_eq_true, if_false]
      rw [lookupA_filter_self _ _ _
        (fun v => by simp [isPrefixOf_self_char])]

theorem getStat_lookup_none {c : Cache} {p : String} (he : c.enabled = true)
    (h : c.getStat 0 p = none) : lookupA c.statCache p = none := by
  simp only [Cache.getStat, he, Bool.not_true, Bool.false_eq_true, if_false] at h
  cases hl : lookupA c.statCache p with
  | none => rfl
  | some entry =>
    rw [hl] at h
    simp [Nat.not_lt_zero] at h

theorem isNegative_lookup_none {c : Cache} {p : String} (he : c.enabled = true)
    (h : c.isNegative 0 p = false) : lookupA c.negativeCache p = none := by
  simp only [Cache.isNegative, he, Bool.not_true, Bool.false_eq_true, if_false] at h
  cases hl : lookupA c.negativeCache p with
  | none => rfl
  | some e =>
    rw [hl] at h
    simp [Nat.not_lt_zero] at h

theorem cleared_invalidate_mono (c : Cache) (p p2 : String)
    (h : cacheCleared c p) : cacheCleared (c.invalidate p2) p := by
  intro t
  cases he : c.enabled with
  | false =>
    simp only [Cache.invalidate, he, Bool.not_false, if_true]
    exact h t
  | true =>
    have h1 : lookupA c.statCache p = none := getStat_lookup_none he (h 0).1
    have h2 : lookupA c.negativeCache p = none := isNegative_lookup_none he (h 0).2
    constructor
    · simp only [Cache.invalidate, Cache.getStat, he, Bool.not_true,
        Bool.false_eq_true, if_false]
      rw [lookupA_filter_mono _ _ _ h1]
    · simp only [Cache.invalidate, Cache.isNegative, he, Bool.not_true,
        Bool.false_eq_true, if_false]
      rw [lookupA_filter_mono _ _ _ h2]

theorem stepBind_ok {E : Except Err Unit × UnionFS}
    {K : UnionFS → Except Err Unit × UnionFS} (P : UnionFS → Prop)
    (hs : (stepBind E K).1 = .ok ())
    (hk : ∀ v, (K v).1 = .ok () → P (K v).2) : P (stepBind E K).2 := by
  rcases E with ⟨r, v⟩
  cases r with
  | error e => exact Except.noConfusion hs
  | ok _ => exact hk v hs

theorem cleared_openFileOp (u : UnionFS) (now : Nat) (name : String) (fl : OFlag)
    (perm : Nat) (hw : fl.isWrite = true)
    (hs : (u.openFileOp now name fl perm).1 = .ok ()) :
    cacheCleared (u.openFileOp now name fl perm).2.cache
      (cleanPath (cleanPath name)) := by
  unfold UnionFS.openFileOp at hs ⊢
  rw [if_pos hw] at hs ⊢
  cases hg : u.getWritableLayer with
  | error e => rw [hg] at hs; exact Except.noConfusion hs
  | ok wl =>
    rw [hg] at hs
    dsimp only at hs ⊢
    cases hd : u.ensureDir (cleanPath name) with
    | error e => rw [hd] at hs; exact Except.noConfusion hs
    | ok u1 =>
      rw [hd] at hs
      dsimp only at hs ⊢
      refine stepBind_ok
        (fun u2 => cacheCleared u2.cache (cleanPath (cleanPath name))) hs ?_
      intro v hv
      dsimp only at hv ⊢
      cases ho : ((v.setTop ((v.top).removeQuiet
          (whiteoutPath (cleanPath name)))).invalidateCache
          (cleanPath name)).top.openFileWrite (cleanPath name) fl perm with
      | error e => rw [ho] at hv; exact Except.noConfusion hv
      | ok wl2 =>
        exact cleared_invalidate_self v.cache (cleanPath (cleanPath name))

theorem cleared_mkdirOp (u : UnionFS) (name : String) (perm : Nat)
    (hs : (u.mkdirOp name perm).1 = .ok ()) :
    cacheCleared (u.mkdirOp name perm).2.cache (cleanPath (cleanPath name)) := by
  unfold UnionFS.mkdirOp at hs ⊢
  cases hg : u.getWritableLayer with
  | error e => rw [hg] at hs; exact Except.noConfusion hs
  | ok wl =>
    rw [hg] at hs
    dsimp only at hs ⊢
    cases hd : u.ensureDir (cleanPath name) with
    | error e => rw [hd] at hs; exact Except.noConfusion hs
    | ok u1 =>
      rw [hd] at hs
      dsimp only at hs ⊢
      cases hm : (u1.setTop ((u1.top).removeQuiet
          (whiteoutPath (cleanPath name)))).top.mkdir (cleanPath name) perm with
      | error e => rw [hm] at hs; exact Except.noConfusion hs
      | ok wl2 =>
        exact cleared_invalidate_self _ _

theorem cleared_mkdirAllOp (u : UnionFS) (name : String) (perm : Nat)
    (hs : (u.mkdirAllOp name perm).1 = .ok ()) :
    cacheCleared (u.mkdirAllOp name perm).2.cache (cleanPath (cleanPath name)) := by
  unfold UnionFS.mkdirAllOp at hs ⊢
  cases hg : u.getWritableLayer with
  | error e => rw [hg] at hs; exact Except.noConfusion hs
  | ok wl =>
    rw [hg] at hs
    dsimp only at hs ⊢
    cases hm : (u.setTop _).top.mkdirAll (cleanPath name) perm with
    | error e => rw [hm] at hs; exact Except.noConfusion hs
    | ok wl2 =>
      exact cleared_invalidateTree_self _ _

theorem cleared_removeOp (u : UnionFS) (now : Nat) (name : String)
    (hs : (u.removeOp now name).1 = .ok ()) :
    cacheCleared (u.removeOp now name).2.cache (cleanPath (cleanPath name)) := by
  unfold UnionFS.removeOp at hs ⊢
  cases hg : u.getWritableLayer with
  | error e => rw [hg] at hs; exact Except.noConfusion hs
  | ok wl =>
    rw [hg] at hs
    dsimp only at hs ⊢
    rcases hfc : u.findFileC now (cleanPath name) with ⟨res, c⟩
    rw [hfc] at hs
    cases res with
    | none => exact Except.noConfusion hs
    | some r =>
      rcases r with ⟨info, idx⟩
      dsimp only at hs ⊢
      refine stepBind_ok
        (fun u2 => cacheCleared u2.cache (cleanPath (cleanPath name))) hs ?_
      intro v hv
      dsimp only at hv ⊢
      rw [if_pos (by simp)] at hv ⊢
      cases hd : v.ensureDir (whiteoutPath (cleanPath name)) with
      | error e => rw [hd] at hv; exact Except.noConfusion hv
      | ok u3 =>
        exact cleared_invalidate_self _ _

theorem cleared_removeAllOp (u : UnionFS) (now : Nat) (name : String)
    (hs : (u.removeAllOp now name).1 = .ok ()) :
    cacheCleared (u.removeAllOp now name).2.cache (cleanPath (cleanPath name)) := by
  unfold UnionFS.removeAllOp at hs ⊢
  cases hg : u.getWritableLayer with
  | error e => rw [hg] at hs; exact Except.noConfusion hs
  | ok wl =>
    rw [hg] at hs
    dsimp only at hs ⊢
    rcases hfc : u.findFileC now (cleanPath name) with ⟨res, c⟩
    rw [hfc] at hs
    cases res with
    | none => exact Except.noConfusion hs
    | some r =>
      rcases r with ⟨info, idx⟩
      dsimp only at hs ⊢
      refine stepBind_ok
        (fun u2 => cacheCleared u2.cache (cleanPath (cleanPath name))) hs ?_
      intro v hv
      dsimp only at hv ⊢
      by_cases hidx : idx > 0
      · rw [if_pos hidx] at hv ⊢
        cases hd : v.ensureDir (whiteoutPath (cleanPath name)) with
        | error e => rw [hd] at hv; exact Except.noConfusion hv
        | ok u3 =>
          exact cleared_invalidateTree_self _ _
      · rw [if_neg hidx]
        exact cleared_invalidateTree_self _ _

theorem cleared_renameOp (u : UnionFS) (now : Nat) (oldname newname : String)
    (hs : (u.renameOp now oldname newname).1 = .ok ()) :
    cacheCleared (u.renameOp now oldname newname).2.cache
        (cleanPath (cleanPath oldname)) ∧
      cacheCleared (u.renameOp now oldname newname).2.cache
        (cleanPath (cleanPath newname)) := by
  unfold UnionFS.renameOp at hs ⊢
  cases hg : u.getWritableLayer with
  | error e => rw [hg] at hs; exact Except.noConfusion hs
  | ok wl =>
    rw [hg] at hs
    dsimp only at hs ⊢
    rcases hfc : u.findFileC now (cleanPath oldname) with ⟨res, c⟩
    rw [hfc] at hs
    cases res with
    | none => exact Except.noConfusion hs
    | some r =>
      rcases r with ⟨info, idx⟩
      dsimp only at hs ⊢
      refine stepBind_ok (fun u2 =>
        cacheCleared u2.cache (cleanPath (cleanPath oldname)) ∧
          cacheCleared u2.cache (cleanPath (cleanPath newname))) hs ?_
      intro v hv
      dsimp only at hv ⊢
      cases hd : v.ensureDir (cleanPath newname) with
      | error e => rw [hd] at hv; exact Except.noConfusion hv
      | ok v1 =>
        rw [hd] at hv
        dsimp only at hv ⊢
        cases hr : (v1.setTop ((v1.top).removeQuiet
            (whiteoutPath (cleanPath newname)))).top.rename (cleanPath oldname)
            (cleanPath newname) with
        | error e => rw [hr] at hv; exact Except.noConfusion hv
        | ok wl2 =>
          rw [hr] at hv
          dsimp only at hv ⊢
          refine stepBind_ok (fun u2 =>
            cacheCleared u2.cache (cleanPath (cleanPath oldname)) ∧
              cacheCleared u2.cache (cleanPath (cleanPath newname))) hv ?_
          intro v4 _
          constructor
          · exact cleared_invalidate_mono _ _ _ (cleared_invalidate_self _ _)
          · exact cleared_invalidate_self _ _

theorem cleared_chmodOp (u : UnionFS) (now : Nat) (name : String) (mode : Nat)
    (hs : (u.chmodOp now name mode).1 = .ok ()) :
    cacheCleared (u.chmodOp now name mode).2.cache (cleanPath (cleanPath name)) := by
  unfold UnionFS.chmodOp at hs ⊢
  cases hg : u.getWritableLayer with
  | error e => rw [hg] at hs; exact Except.noConfusion hs
  | ok wl =>
    rw [hg] at hs
    dsimp only at hs ⊢
    rcases hfc : u.findFileC now (cleanPath name) with ⟨res, c⟩
    rw [hfc] at hs
    cases res with
    | none => exact Except.noConfusion hs
    | some r =>
      rcases r with ⟨info, idx⟩
      dsimp only at hs ⊢
      refine stepBind_ok
        (fun u2 => cacheCleared u2.cache (cleanPath (cleanPath name))) hs ?_
      intro v hv
      dsimp only at hv ⊢
      cases hcm : (v.top).chmod (cleanPath name) mode with
      | error e => rw [hcm] at hv; exact Except.noConfusion hv
      | ok wl2 =>
        exact cleared_invalidate_self _ _

theorem cleared_chownOp (u : UnionFS) (now : Nat) (name : String) (uid gid : Nat)
    (hs : (u.chownOp now name uid gid).1 = .ok ()) :
    cacheCleared (u.chownOp now name uid gid).2.cache (cleanPath (cleanPath name)) := by
  unfold UnionFS.chownOp at hs ⊢
  cases hg : u.getWritableLayer with
  | error e => rw [hg] at hs; exact Except.noConfusion hs
  | ok wl =>
    rw [hg] at hs
    dsimp only at hs ⊢
    rcases hfc : u.findFileC now (cleanPath name) with ⟨res, c⟩
    rw [hfc] at hs
    cases res with
    | none => exact Except.noConfusion hs
    | some r =>
      rcases r with ⟨info, idx⟩
      dsimp only at hs ⊢
      refine stepBind_ok
        (fun u2 => cacheCleared u2.cache (cleanPath (cleanPath name))) hs ?_
      intro v hv
      dsimp only at hv ⊢
      cases hcm : (v.top).chown (cleanPath name) uid gid with
      | error e => rw [hcm] at hv; exact Except.noConfusion hv
      | ok wl2 =>
        exact cleared_invalidate_self _ _

theorem cleared_chtimesOp (u : UnionFS) (now : Nat) (name : String) (mtime : Nat)
    (hs : (u.chtimesOp now name mtime).1 = .ok ()) :
    cacheCleared (u.chtimesOp now name mtime).2.cache (cleanPath (cleanPath name)) := by
  unfold UnionFS.chtimesOp at hs ⊢
  cases hg : u.getWritableLayer with
  | error e => rw [hg] at hs; exact Except.noConfusion hs
  | ok wl =>
    rw [hg] at hs
    dsimp only at hs ⊢
    rcases hfc : u.findFileC now (cleanPath name) with ⟨res, c⟩
    rw [hfc] at hs
    cases res with
    | none => exact Except.noConfusion hs
    | some r =>
      rcases r with ⟨info, idx⟩
      dsimp only at hs ⊢
      refine stepBind_ok
        (fun u2 => cacheCleared u2.cache (cleanPath (cleanPath name))) hs ?_
      intro v hv
      dsimp only at hv ⊢
      cases hcm : (v.top).chtimes (cleanPath name) mtime with
      | error e => rw [hcm] at hv; exact Except.noConfusion hv
      | ok wl2 =>
        exact cleared_invalidate_self _ _

theorem cleared_truncateOp (u : UnionFS) (now : Nat) (name : String) (size : Nat)
    (hs : (u.truncateOp now name size).1 = .ok ()) :
    cacheCleared (u.truncateOp now name size).2.cache (cleanPath (cleanPath name)) := by
  unfold UnionFS.truncateOp at hs ⊢
  cases hg : u.getWritableLayer with
  | error e => rw [hg] at hs; exact Except.noConfusion hs
  | ok wl =>
    rw [hg] at hs
    dsimp only at hs ⊢
    rcases hfc : u.findFileC now (cleanPath name) with ⟨res, c⟩
    rw [hfc] at hs
    cases res with
    | none => exact Except.noConfusion hs
    | some r =>
      rcases r with ⟨info, idx⟩
      dsimp only at hs ⊢
      by_cases hdir : info.isDir = true
      · rw [if_pos hdir] at hs; exact Except.noConfusion hs
      · rw [if_neg hdir] at hs ⊢
        refine stepBind_ok
          (fun u2 => cacheCleared u2.cache (cleanPath (cleanPath name))) hs ?_
        intro v hv
        dsimp only at hv ⊢
        cases hcm : (v.top).truncate (cleanPath name) size with
        | error e => rw [hcm] at hv; exact Except.noConfusion hv
        | ok wl2 =>
          exact cleared_invalidate_self _ _

/-- The path(s) a mutating operation touches (for Rename, both names). -/
def MutOp.touched : MutOp → List String
  | .openf name _ _ => [name]
  | .create name => [name]
  | .mkdir name _ => [name]
  | .mkdirAll name _ => [name]
  | .remove name => [name]
  | .removeAll name => [name]
  | .rename oldname newname => [oldname, newname]
  | .chmod name _ => [name]
  | .chown name _ _ => [name]
  | .chtimes name _ => [name]
  | .symlink _ newname => [newname]
  | .truncate name _ => [name]

/-- Whether the operation is the Symlink operation. -/
def MutOp.isSymlinkOp : MutOp → Bool
  | .symlink _ _ => true
  | _ => false

/-- C3, amended: a successful mutation other than Symlink always clears
the cache entries for the exact (cleaned) path(s) it touches — both paths
for Rename — but only MkdirAll and RemoveAll invalidate descendants;
Rename of a directory leaves cached entries for the directory's
descendants in place, and Symlink invalidates nothing. -/
theorem claim_C3 (op : MutOp) (now : Nat) (u : UnionFS) (q : String)
    (hns : op.isSymlinkOp = false)
    (hreq : op.requiresWritable = true)
    (hs : (applyMut op now u).1 = .ok ())
    (hq : q ∈ op.touched)
    (hclean : cleanPath (cleanPath q) = cleanPath q) :
    cacheCleared (applyMut op now u).2.cache (cleanPath q) := by
  rw [← hclean]
  cases op with
  | openf name fl perm =>
    rw [List.mem_singleton.mp hq]
    exact cleared_openFileOp u now name fl perm hreq hs
  | create name =>
    rw [List.mem_singleton.mp hq]
    exact cleared_openFileOp u now name
      { rdwr := true, creat := true, trunc := true } 0o666 rfl hs
  | mkdir name perm =>
    rw [List.mem_singleton.mp hq]
    exact cleared_mkdirOp u name perm hs
  | mkdirAll name perm =>
    rw [List.mem_singleton.mp hq]
    exact cleared_mkdirAllOp u name perm hs
  | remove name =>
    rw [List.mem_singleton.mp hq]
    exact cleared_removeOp u now name hs
  | removeAll name =>
    rw [List.mem_singleton.mp hq]
    exact cleared_removeAllOp u now name hs
  | rename oldname newname =>
    rcases List.mem_cons.mp hq with h1 | h1
    · rw [h1]
      exact (cleared_renameOp u now oldname newname hs).1
    · rw [List.mem_singleton.mp h1]
      exact (cleared_renameOp u now oldname newname hs).2
  | chmod name mode =>
    rw [List.mem_singleton.mp hq]
    exact cleared_chmodOp u now name mode hs
  | chown name uid gid =>
    rw [List.mem_singleton.mp hq]
    exact cleared_chownOp u now name uid gid hs
  | chtimes name mtime =>
    rw [List.mem_singleton.mp hq]
    exact cleared_chtimesOp u now name mtime hs
  | symlink target newname => exact Bool.noConfusion hns
  | truncate name size =>
    rw [List.mem_singleton.mp hq]
    exact cleared_truncateOp u now name size hs

/-- A one-writable-layer engine holding the directory `/d` with file
`/d/f`, with an enabled stat cache (TTL 100). -/
def uC3 : UnionFS :=
  { layers := [⟨[("/d", dirNode 0o755 0),
                 ("/d/f", fileNode (bytesOf "x") 0o644 0)]⟩],
    hasWritable := true, cache := newCache true 100 50 1000 }

/-- The same engine after `Stat("/d/f")` at time 0 primed the cache. -/
def uC3a : UnionFS := (uC3.statOp 0 "/d/f").2

/-- C3, counterexample: `Rename("/d", "/e")` of a directory succeeds but
invalidates only the exact paths `/d` and `/e`; the cached entry for the
descendant `/d/f` survives, and a subsequent `Stat("/d/f")` (time 2,
inside the TTL) returns the pre-mutation cached info even though a fresh
scan of the layers no longer finds `/d/f`. -/
theorem claim_C3_counterexample :
    (uC3a.renameOp 1 "/d" "/e").1 = .ok () ∧
      (lookupA (uC3a.renameOp 1 "/d" "/e").2.cache.statCache "/d/f").isSome =
        true ∧
      ((uC3a.renameOp 1 "/d" "/e").2.statOp 2 "/d/f").1 =
        .ok (fileNode (bytesOf "x") 0o644 0) ∧
      UnionFS.findAux (uC3a.renameOp 1 "/d" "/e").2 "/d/f"
        (uC3a.renameOp 1 "/d" "/e").2.layers 0 = none := by
  refine ⟨rfl, rfl, rfl, rfl⟩

/-- C3, witness: the amended claim applied to a successful
`Remove("/f")` on an engine with an enabled cache. -/
theorem claim_C3_witness :
    (MutOp.remove "/f").isSymlinkOp = false ∧
      (MutOp.remove "/f").requiresWritable = true ∧
      (applyMut (.remove "/f") 0
        { layers := [⟨[("/f", fileNode [] 0o644 0)]⟩], hasWritable := true,
          cache := newCache true 100 50 10 }).1 = .ok () ∧
      "/f" ∈ (MutOp.remove "/f").touched ∧
      cleanPath (cleanPath "/f") = cleanPath "/f" ∧
      cacheCleared (applyMut (.remove "/f") 0
        { layers := [⟨[("/f", fileNode [] 0o644 0)]⟩], hasWritable := true,
          cache := newCache true 100 50 10 }).2.cache (cleanPath "/f") :=
  ⟨rfl, rfl, rfl, by decide, by decide,
    claim_C3 (.remove "/f") 0
      { layers := [⟨[("/f", fileNode [] 0o644 0)]⟩], hasWritable := true,
        cache := newCache true 100 50 10 } "/f" rfl rfl rfl (by decide) (by decide)⟩
